import Mathlib

/-!
# Hash table with separate chaining (`hashtables.c`)

A shallow embedding of `src/full_hashtable/hashtables.c`.

Modelling conventions.

* A C string is held as the list of its bytes before the terminating NUL
  (`CStr`), so `strcmp(a, b) == 0` is equality of lists and the loop
  `while ((c = *u_str++))` of `hash` is a walk over the list.
* A chain (`LinkedPair *` with its `next` links) is a `List LinkedPair`, head
  first; the bucket array `storage` is a list of chains.
* The `int` fields `capacity` and `num_used` hold natural numbers (the code
  never makes them negative).  The two `int` operations of the code that can
  overflow, `ht->capacity*2` in `hash_table_resize` and `ht->num_used++` in
  `hash_table_insert`, are undefined in C when their result exceeds
  `INT_MAX = 2 ^ 31 - 1`; they yield `Outcome.undefined` then.  `resized`,
  which the code only ever sets to `0` or `1`, is a `Bool`.
* The `unsigned long` accumulator of `hash` wraps modulo `2 ^ 64` (LP64) and
  the `unsigned int` return value modulo `2 ^ 32`.
* `(double) num_used / capacity > 0.7` is modelled by
  `7 * capacity < 10 * num_used`, and `load < 0.2` by
  `5 * num_used < capacity`: for operands in the range of `int` the quotient
  differs from `7/10` (resp. `1/5`) by at least `1 / (10 * capacity)`, far
  more than one unit in the last place of a `double`, so the floating-point
  comparison agrees with the exact one.
* Operations whose C behaviour is undefined (a modulus of zero in `hash`, a
  read past the end of a bucket array, a signed overflow) yield
  `Outcome.undefined`.  The
  recursion `hash_table_insert -> hash_table_resize / hash_table_shrink ->
  hash_table_insert` is bounded by a fuel argument counting the nesting depth
  of `hash_table_insert`; running out of it yields `Outcome.out_of_fuel`.
* Memory management (`malloc`, `calloc`, `strdup`, `free`) and the message
  printed by `perror` are not part of the model: every allocation is taken to
  succeed.
-/

namespace HashTables

/-- Bytes of a C string, without the terminating NUL. -/
abbrev CStr := List Nat

/-- Result of running a C function of the model. -/
inductive Outcome (α : Type) where
  | ok (a : α)
  | undefined
  | out_of_fuel
deriving DecidableEq, Repr

/-- The `typedef struct LinkedPair`; the `next` pointer is the tail of the list
the pair is stored in. -/
structure LinkedPair where
  key : CStr
  value : CStr
deriving DecidableEq, Repr

/-- The `typedef struct HashTable`. -/
structure HashTable where
  capacity : Nat
  resized : Bool
  num_used : Nat
  storage : List (List LinkedPair)
deriving DecidableEq, Repr

/-- Function `create_pair`: a fresh node carrying copies of `key` and `value`. -/
def create_pair (key value : CStr) : LinkedPair :=
  { key := key, value := value }

/-- Largest value of the type `int` (32 bits). -/
def INT_MAX : Nat := 2 ^ 31 - 1

/-- Modulus of `unsigned long` arithmetic. -/
def ULONG_MOD : Nat := 2 ^ 64

/-- Modulus of `unsigned int` arithmetic. -/
def UINT_MOD : Nat := 2 ^ 32

/-- The `while` loop of `hash`: `hash = ((hash << 5) + hash) + c` for each byte,
every operation in `unsigned long`. -/
def hash_loop : CStr → Nat → Nat
  | [], h => h
  | c :: rest, h =>
    hash_loop rest ((((h * 2 ^ 5) % ULONG_MOD + h) % ULONG_MOD + c) % ULONG_MOD)

/-- Function `hash(str, max)`, for `max > 0` (for `max = 0` the C expression
`hash % max` is undefined; the callers below test for it first). -/
def hash (str : CStr) (max : Nat) : Nat :=
  (hash_loop str 5381 % max) % UINT_MOD

/-- Function `init_hash_table`: every field is overwritten, the storage is
`calloc(capacity, ...)`, that is `capacity` empty chains. -/
def init_hash_table (_ht : HashTable) (capacity : Nat) : HashTable :=
  { capacity := capacity
    storage := List.replicate capacity []
    resized := false
    num_used := 0 }

/-- Function `create_hash_table`. -/
def create_hash_table (capacity : Nat) : HashTable :=
  init_hash_table { capacity := 0, resized := false, num_used := 0, storage := [] } capacity

/-- Walk of the chain from `curr` on with `last != NULL` (lines 192-200 of
`hash_table_insert`): the first node whose key equals `pair.key` is replaced by
`pair`; `none` when the walk reaches the end of the chain. -/
def chain_replace (pair : LinkedPair) : List LinkedPair → Option (List LinkedPair)
  | [] => none
  | curr :: next =>
    if curr.key = pair.key then some (pair :: next)
    else (chain_replace pair next).map (fun l => curr :: l)

/-- Lines 192-206 of `hash_table_insert` on the chain `ht->storage[index]`:
the new chain and whether `num_used` is incremented.  A match behind the head
(`curr && last`) is replaced; otherwise `pair` is put in front of the whole
chain, and `num_used` goes up when no node matched (`curr == NULL`). -/
def chain_insert (pair : LinkedPair) : List LinkedPair → List LinkedPair × Bool
  | [] => ([pair], true)
  | head :: rest =>
    if head.key = pair.key then (pair :: head :: rest, false)
    else
      match chain_replace pair rest with
      | some rest' => (head :: rest', false)
      | none => (pair :: head :: rest, true)

/-- Lines 187-206 of `hash_table_insert`: the update of the bucket array and of
`num_used`, before the load factor is looked at.  The increment
`ht->num_used++` overflows when `num_used` is `INT_MAX` already. -/
def insert_store (ht : HashTable) (key value : CStr) : Outcome HashTable :=
  if ht.capacity = 0 then .undefined
  else
    let index := hash key ht.capacity
    match ht.storage[index]? with
    | none => .undefined
    | some chain =>
      let r := chain_insert (create_pair key value) chain
      if r.2 = true ∧ INT_MAX ≤ ht.num_used then .undefined
      else
        .ok { ht with
              storage := ht.storage.set index r.1
              num_used := if r.2 then ht.num_used + 1 else ht.num_used }

/-- The inner `while (curr)` loop of `hash_table_resize` and
`hash_table_shrink`: every node of a chain of the old array is inserted, from
head to tail, by `ins`. -/
def walk_chain (ins : HashTable → CStr → CStr → Outcome HashTable) :
    List LinkedPair → HashTable → Outcome HashTable
  | [], ht => .ok ht
  | curr :: next, ht =>
    match ins ht curr.key curr.value with
    | .ok ht' => walk_chain ins next ht'
    | .undefined => .undefined
    | .out_of_fuel => .out_of_fuel

/-- The `for (int i = 0; i < old_len; i++)` loop of `hash_table_resize`.
`buckets` is the part of `old_storage` from index `i` on and `todo` is
`old_len - i`. -/
def resize_loop (ins : HashTable → CStr → CStr → Outcome HashTable) :
    List (List LinkedPair) → Nat → HashTable → Outcome HashTable
  | _, 0, ht => .ok ht
  | [], _ + 1, _ => .undefined
  | chain :: rest, todo + 1, ht =>
    match walk_chain ins chain ht with
    | .ok ht' => resize_loop ins rest todo ht'
    | .undefined => .undefined
    | .out_of_fuel => .out_of_fuel

/-- The `for (int i = 0; i < ht->capacity; i++)` loop of `hash_table_shrink`.
`buckets` is the part of `old_storage` from index `i` on; the bound
`ht->capacity` is read from the table under construction at every turn. -/
def shrink_loop (ins : HashTable → CStr → CStr → Outcome HashTable) :
    List (List LinkedPair) → Nat → HashTable → Outcome HashTable
  | [], i, ht => if i < ht.capacity then .undefined else .ok ht
  | chain :: rest, i, ht =>
    if i < ht.capacity then
      match walk_chain ins chain ht with
      | .ok ht' => shrink_loop ins rest (i + 1) ht'
      | .undefined => .undefined
      | .out_of_fuel => .out_of_fuel
    else .ok ht

/-- Body of `hash_table_resize`, the recursive calls of `hash_table_insert`
being `ins`.  The product `ht->capacity*2` is computed in `int`: it overflows
when it exceeds `INT_MAX`. -/
def hash_table_resize_with (ins : HashTable → CStr → CStr → Outcome HashTable)
    (ht : HashTable) : Outcome HashTable :=
  let old_storage := ht.storage
  let old_len := ht.capacity
  if INT_MAX < ht.capacity * 2 then .undefined
  else
    match resize_loop ins old_storage old_len (init_hash_table ht (ht.capacity * 2)) with
    | .ok ht' => .ok { ht' with resized := true }
    | .undefined => .undefined
    | .out_of_fuel => .out_of_fuel

/-- Body of `hash_table_shrink`, the recursive calls of `hash_table_insert`
being `ins`. -/
def hash_table_shrink_with (ins : HashTable → CStr → CStr → Outcome HashTable)
    (ht : HashTable) : Outcome HashTable :=
  let old_storage := ht.storage
  match shrink_loop ins old_storage 0 (init_hash_table ht (ht.capacity / 2)) with
  | .ok ht' => .ok { ht' with resized := true }
  | .undefined => .undefined
  | .out_of_fuel => .out_of_fuel

/-- Lines 208-214 of `hash_table_insert`: the load-factor check, `ins` being
`hash_table_insert` for the calls made by a rebuild. -/
def load_check (ins : HashTable → CStr → CStr → Outcome HashTable)
    (ht : HashTable) : Outcome HashTable :=
  if 0 < ht.capacity then
    if 7 * ht.capacity < 10 * ht.num_used then hash_table_resize_with ins ht
    else if ht.resized ∧ 5 * ht.num_used < ht.capacity then hash_table_shrink_with ins ht
    else .ok ht
  else .ok ht

/-- Function `hash_table_insert`.  The first argument bounds the nesting depth of the
calls of `hash_table_insert` (a call made by a rebuild has one unit less). -/
def hash_table_insert : Nat → HashTable → CStr → CStr → Outcome HashTable
  | 0, _, _, _ => .out_of_fuel
  | fuel + 1, ht, key, value =>
    match insert_store ht key value with
    | .ok ht1 => load_check (hash_table_insert fuel) ht1
    | .undefined => .undefined
    | .out_of_fuel => .out_of_fuel

/-- Function `hash_table_resize`, called on its own (as `main` does); `fuel` is given
to each of its `hash_table_insert` calls. -/
def hash_table_resize (fuel : Nat) (ht : HashTable) : Outcome HashTable :=
  hash_table_resize_with (hash_table_insert fuel) ht

/-- Function `hash_table_shrink`, called on its own; `fuel` is given to each of its
`hash_table_insert` calls. -/
def hash_table_shrink (fuel : Nat) (ht : HashTable) : Outcome HashTable :=
  hash_table_shrink_with (hash_table_insert fuel) ht

/-- The walk of `hash_table_remove` (lines 230-244) on the chain
`ht->storage[index]`: the chain without its first node whose key is `key`,
`none` when no node matches (`!curr`). -/
def chain_remove (key : CStr) : List LinkedPair → Option (List LinkedPair)
  | [] => none
  | curr :: next =>
    if curr.key = key then some next
    else (chain_remove key next).map (fun l => curr :: l)

/-- Function `hash_table_remove`.  When the key is not found the function prints a
message and returns; the table is the one it was given. -/
def hash_table_remove (ht : HashTable) (key : CStr) : Outcome HashTable :=
  if ht.capacity = 0 then .undefined
  else
    let index := hash key ht.capacity
    match ht.storage[index]? with
    | none => .undefined
    | some chain =>
      match chain_remove key chain with
      | none => .ok ht
      | some chain' => .ok { ht with storage := ht.storage.set index chain' }

/-- The loop of `hash_table_retrieve` on a chain: the value of the first node
whose key is `key`, `none` for the `NULL` returned at the end of the chain. -/
def chain_retrieve (key : CStr) : List LinkedPair → Option CStr
  | [] => none
  | curr :: next => if curr.key = key then some curr.value else chain_retrieve key next

/-- Function `hash_table_retrieve`; `Outcome.ok none` is the `NULL` result. -/
def hash_table_retrieve (ht : HashTable) (key : CStr) : Outcome (Option CStr) :=
  if ht.capacity = 0 then .undefined
  else
    match ht.storage[hash key ht.capacity]? with
    | none => .undefined
    | some chain => .ok (chain_retrieve key chain)

/-- A call of the public interface that changes the table. -/
inductive Op where
  | insert (key value : CStr)
  | remove (key : CStr)
deriving DecidableEq, Repr

/-- One call of `hash_table_insert` or `hash_table_remove`. -/
def step (fuel : Nat) (ht : HashTable) : Op → Outcome HashTable
  | .insert key value => hash_table_insert fuel ht key value
  | .remove key => hash_table_remove ht key

/-- A sequence of calls, in order, each `hash_table_insert` with `fuel`. -/
def run (fuel : Nat) : HashTable → List Op → Outcome HashTable
  | ht, [] => .ok ht
  | ht, op :: ops =>
    match step fuel ht op with
    | .ok ht' => run fuel ht' ops
    | .undefined => .undefined
    | .out_of_fuel => .out_of_fuel

/-- The key `"line_1"`. -/
def line_1 : CStr := [108, 105, 110, 101, 95, 49]

/-- The key `"line_2"`. -/
def line_2 : CStr := [108, 105, 110, 101, 95, 50]

/-- The key `"line_3"`. -/
def line_3 : CStr := [108, 105, 110, 101, 95, 51]

/-- The value `"Tiny hash table\n"` of `main`. -/
def text_1 : CStr :=
  [84, 105, 110, 121, 32, 104, 97, 115, 104, 32, 116, 97, 98, 108, 101, 10]

/-- The value `"Filled beyond capacity\n"` of `main`. -/
def text_2 : CStr :=
  [70, 105, 108, 108, 101, 100, 32, 98, 101, 121, 111, 110, 100, 32, 99, 97, 112, 97, 99,
   105, 116, 121, 10]

/-- The value `"Linked list saves the day!\n"` of `main`. -/
def text_3 : CStr :=
  [76, 105, 110, 107, 101, 100, 32, 108, 105, 115, 116, 32, 115, 97, 118, 101, 115, 32, 116,
   104, 101, 32, 100, 97, 121, 33, 10]

/-- The djb2 accumulator as the specification words it: the left fold of
`h -> (h * 33 + byte) mod 2 ^ w` over the bytes, from the seed `5381`. -/
def djb2_fold (w : Nat) (key : CStr) : Nat :=
  key.foldl (fun h byte => (h * 33 + byte) % 2 ^ w) 5381

/-! ## Notions used to state and prove the properties -/

/-- The chain a key is looked for in: `ht->storage[hash(key, ht->capacity)]`
(empty when that index is outside the storage). -/
def bucket (ht : HashTable) (key : CStr) : List LinkedPair :=
  (ht.storage[hash key ht.capacity]?).getD []

/-- What `hash_table_retrieve` finds for `key`. -/
def lookup (ht : HashTable) (key : CStr) : Option CStr :=
  chain_retrieve key (bucket ht key)

/-- The table `insert_store` yields for the node `pair` when the table is
well formed. -/
def store (ht : HashTable) (pair : LinkedPair) : HashTable :=
  { ht with
    storage := ht.storage.set (hash pair.key ht.capacity)
      (chain_insert pair (bucket ht pair.key)).1
    num_used :=
      if (chain_insert pair (bucket ht pair.key)).2 then ht.num_used + 1 else ht.num_used }

/-- The table `hash_table_remove` yields when the table is well formed. -/
def removed (ht : HashTable) (key : CStr) : HashTable :=
  match chain_remove key (bucket ht key) with
  | none => ht
  | some chain' => { ht with storage := ht.storage.set (hash key ht.capacity) chain' }

/-- The nodes of a list stored one after the other, without any rebuild. -/
def fill (ht : HashTable) (pairs : List LinkedPair) : HashTable :=
  pairs.foldl store ht

/-- All nodes of the table, bucket after bucket, each chain head first: the
order in which a rebuild walks them. -/
def entries (ht : HashTable) : List LinkedPair :=
  ht.storage.flatten

/-- The set of keys of a list of nodes. -/
def pair_keys (pairs : List LinkedPair) : Finset CStr :=
  (pairs.map LinkedPair.key).toFinset

/-- The set of keys stored in the table. -/
def table_keys (ht : HashTable) : Finset CStr :=
  pair_keys (entries ht)

/-- The storage has `capacity` chains and the capacity is positive. -/
def WellFormed (ht : HashTable) : Prop :=
  ht.storage.length = ht.capacity ∧ 1 ≤ ht.capacity

/-- Every node sits in the chain its key hashes to. -/
def BucketsOK (ht : HashTable) : Prop :=
  ∀ i chain, ht.storage[i]? = some chain → ∀ p ∈ chain, hash p.key ht.capacity = i

/-- No two different nodes of the list have the same key. -/
def KeyFunctional (pairs : List LinkedPair) : Prop :=
  ∀ p ∈ pairs, ∀ q ∈ pairs, p.key = q.key → p = q

/-- The table `hash_table_resize` builds when none of its inserts rebuilds. -/
def grown (ht : HashTable) : HashTable :=
  { fill (init_hash_table ht (ht.capacity * 2)) (entries ht) with resized := true }

/-- The table `hash_table_shrink` builds when none of its inserts rebuilds:
only the chains at the indices below the new capacity are walked. -/
def shrunk (ht : HashTable) : HashTable :=
  { fill (init_hash_table ht (ht.capacity / 2))
      (ht.storage.take (ht.capacity / 2)).flatten with resized := true }

/-- The table is well formed, every node sits in its bucket and `num_used`
is the number of different keys stored. -/
def Tidy (ht : HashTable) : Prop :=
  WellFormed ht ∧ BucketsOK ht ∧ ht.num_used = (table_keys ht).card

/-- What holds of a table built by inserts of different keys only: it is tidy,
no key is stored twice, the load is at most 0.7 and, once the table has grown,
above 0.35. -/
def Clean (ht : HashTable) : Prop :=
  Tidy ht ∧ KeyFunctional (entries ht) ∧ 10 * ht.num_used ≤ 7 * ht.capacity ∧
    (ht.resized = true → 7 * ht.capacity < 20 * ht.num_used)

/-- What holds of every table the public interface can produce: the table is
well formed, every node sits in its bucket, `num_used` is at least the number
of different keys stored, the load is at most 0.7 and `num_used` is in the
range of `int`. -/
def Sound (ht : HashTable) : Prop :=
  WellFormed ht ∧ BucketsOK ht ∧ (table_keys ht).card ≤ ht.num_used ∧
    10 * ht.num_used ≤ 7 * ht.capacity ∧ ht.num_used ≤ INT_MAX

/-- Tables obtained from `create_hash_table(c)`, `c >= 1`, by a sequence of
`hash_table_insert` and `hash_table_remove` calls that all return. -/
def Reachable (ht : HashTable) : Prop :=
  ∃ c ops fuel, 1 ≤ c ∧ run fuel (create_hash_table c) ops = .ok ht

/-- The `hash_table_insert` calls for a list of (key, value) pairs. -/
def inserts (kvs : List (CStr × CStr)) : List Op :=
  kvs.map (fun kv => Op.insert kv.1 kv.2)

/-- The three `hash_table_insert` calls of `main`. -/
def demo_ops : List Op :=
  [.insert line_1 text_1, .insert line_2 text_2, .insert line_3 text_3]

/-- Whether the load check of lines 208-214 calls `hash_table_resize` or
`hash_table_shrink` on this table. -/
def rebuild_due (ht : HashTable) : Bool :=
  decide (0 < ht.capacity ∧
    (7 * ht.capacity < 10 * ht.num_used ∨
      (ht.resized = true ∧ 5 * ht.num_used < ht.capacity)))

/-- A `hash_table_insert` that is not allowed to rebuild: lines 187-206, and
no result when the load check that follows would call `hash_table_resize` or
`hash_table_shrink`. -/
def insert_no_rebuild (ht : HashTable) (key value : CStr) : Outcome HashTable :=
  match insert_store ht key value with
  | .ok ht1 => if rebuild_due ht1 then .out_of_fuel else .ok ht1
  | .undefined => .undefined
  | .out_of_fuel => .out_of_fuel

/-- An insert function that, on a well-formed table whose `num_used` can take
the increment, does the store step and nothing else whenever the load check
asks for no rebuild. -/
def Plain (ins : HashTable → CStr → CStr → Outcome HashTable) : Prop :=
  ∀ (t : HashTable) (p : LinkedPair), WellFormed t →
    (p.key ∉ pair_keys (bucket t p.key) → t.num_used < INT_MAX) →
    rebuild_due (store t p) = false → ins t p.key p.value = .ok (store t p)

/-- What a `hash_table_insert` call on `ht` that returns `ht'` has done: the
store step succeeded, the load check gave `ht'` without any re-insert
rebuilding, `ht'` is sound and its capacity is the old one, twice the old one
or half the old one. -/
def InsertResult (ht : HashTable) (key value : CStr) (ht' : HashTable) : Prop :=
  insert_store ht key value = .ok (store ht (create_pair key value)) ∧
    load_check insert_no_rebuild (store ht (create_pair key value)) = .ok ht' ∧
    Sound ht' ∧
    (ht'.capacity = ht.capacity ∨ ht'.capacity = 2 * ht.capacity ∨
      ht'.capacity = ht.capacity / 2)

/-- The empty table of capacity `c` whose `num_used` field is `n`: what
`create_hash_table(c)` followed by `n` times insert-then-remove of one key
leaves, `hash_table_remove` never decrementing `num_used`. -/
def worn_table (c n : Nat) : HashTable :=
  { capacity := c, resized := false, num_used := n, storage := List.replicate c [] }

/-- The calls `insert(key, value); remove(key)`, `n` times over. -/
def wear_ops (key value : CStr) (n : Nat) : List Op :=
  (List.replicate n [Op.insert key value, Op.remove key]).flatten

/-- The decimal digits of `i` as ASCII bytes, lowest digit first: a different
key for every number (the empty string for 0). -/
def digit_key (i : Nat) : CStr :=
  (Nat.digits 10 i).map (fun d => d + 48)

/-- The pairs `(digit_key 0, ""), ..., (digit_key (n - 1), "")`. -/
def digit_pairs (n : Nat) : List (CStr × CStr) :=
  (List.range n).map (fun i => (digit_key i, []))

theorem hash_loop_eq_foldl (key : CStr) (h : Nat) :
    hash_loop key h = key.foldl (fun h byte => (h * 33 + byte) % 2 ^ 64) h := by
  induction key generalizing h with
  | nil => rfl
  | cons c rest ih =>
    simp only [hash_loop, List.foldl_cons, ih, ULONG_MOD]
    congr 1
    omega

theorem hash_lt (key : CStr) (m : Nat) (hm : 1 ≤ m) : hash key m < m := by
  unfold hash
  exact lt_of_le_of_lt (Nat.mod_le _ _) (Nat.mod_lt _ (by omega))

/-- C9: for every key and every modulus `m >= 1`, `hash key m` lies in
`[0, m)`, so it is a valid index into any bucket array of `m` chains (the
lookup `storage[hash key m]?` made by insert, remove and retrieve finds a
chain). -/
theorem hash_range (key : CStr) (m : Nat) (hm : 1 ≤ m) :
    hash key m < m ∧
      ∀ storage : List (List LinkedPair), storage.length = m →
        ∃ chain, storage[hash key m]? = some chain := by
  refine ⟨hash_lt key m hm, fun storage hlen => ?_⟩
  have h : hash key m < storage.length := hlen ▸ hash_lt key m hm
  exact ⟨storage[hash key m], List.getElem?_eq_getElem h⟩

theorem hash_range_witness :
    hash line_1 2 < 2 ∧
      ∀ storage : List (List LinkedPair), storage.length = 2 →
        ∃ chain, storage[hash line_1 2]? = some chain :=
  hash_range line_1 2 (by decide)

/-- C10: for every key and every modulus `m >= 1` in the range of `int`,
`hash key m` is the djb2 fold over the bytes of the key (seed `5381`, step
`h * 33 + byte`, wrapping at `2 ^ 64`) reduced modulo `m`; in particular the
empty key hashes to `5381 mod m` and `hash "line_1" 2 = 1`. -/
theorem hash_is_djb2 (key : CStr) (m : Nat) (hm : 1 ≤ m) (hint : m < 2 ^ 31) :
    hash key m = djb2_fold 64 key % m ∧ hash [] m = 5381 % m ∧ hash line_1 2 = 1 := by
  have hsmall : ∀ x : Nat, x % m % UINT_MOD = x % m := fun x =>
    Nat.mod_eq_of_lt (by
      have h1 : x % m < m := Nat.mod_lt _ (by omega)
      have h2 : (2 : Nat) ^ 31 < UINT_MOD := by decide
      omega)
  refine ⟨?_, ?_, by decide⟩
  · unfold hash djb2_fold
    rw [hsmall, hash_loop_eq_foldl]
  · unfold hash
    rw [hsmall]
    rfl

theorem hash_is_djb2_witness :
    hash line_1 2 = djb2_fold 64 line_1 % 2 ∧ hash [] 2 = 5381 % 2 ∧ hash line_1 2 = 1 :=
  hash_is_djb2 line_1 2 (by decide) (by decide)

/-! ## Removal -/

theorem chain_remove_eq_none (key : CStr) (chain : List LinkedPair)
    (h : ∀ p ∈ chain, p.key ≠ key) : chain_remove key chain = none := by
  induction chain with
  | nil => rfl
  | cons curr next ih =>
    have h1 : curr.key ≠ key := h curr (List.mem_cons_self _ _)
    have h2 : chain_remove key next = none :=
      ih (fun p hp => h p (List.mem_cons_of_mem _ hp))
    simp [chain_remove, h1, h2]

/-- C5: on a table with `capacity >= 1` (whose storage has `capacity` chains),
removing a key that does not occur in the chain at index
`hash key capacity` returns the very same table: chains, capacity, num_used
and resized are all unchanged. -/
theorem remove_absent_noop (ht : HashTable) (key : CStr)
    (hcap : 1 ≤ ht.capacity) (hlen : ht.storage.length = ht.capacity)
    (habs : ∀ chain, ht.storage[hash key ht.capacity]? = some chain →
      ∀ p ∈ chain, p.key ≠ key) :
    hash_table_remove ht key = .ok ht := by
  have hlt : hash key ht.capacity < ht.storage.length := by
    rw [hlen]; exact hash_lt key _ hcap
  obtain ⟨chain, hchain⟩ : ∃ chain, ht.storage[hash key ht.capacity]? = some chain :=
    ⟨_, List.getElem?_eq_getElem hlt⟩
  have hnone := chain_remove_eq_none key chain (habs chain hchain)
  have hne : ht.capacity ≠ 0 := by omega
  simp [hash_table_remove, hne, hchain, hnone]

theorem remove_absent_noop_witness :
    hash_table_remove
        { capacity := 2, resized := false, num_used := 1,
          storage := [[], [{ key := line_3, value := text_3 }]] } line_1 =
      .ok { capacity := 2, resized := false, num_used := 1,
            storage := [[], [{ key := line_3, value := text_3 }]] } :=
  remove_absent_noop _ line_1 (by decide) (by decide) (by decide)

/-! ## Behaviour at concrete inputs -/

/-- C4: `hash_table_remove` never writes `num_used`.  After
`create_hash_table(4)` and one insert of `"line_1"`, `num_used` is 1; removing
`"line_1"` empties its chain and `num_used` is still 1. -/
theorem remove_keeps_num_used :
    hash_table_insert 1 (create_hash_table 4) line_1 text_1 =
        .ok { capacity := 4, resized := false, num_used := 1,
              storage := [[], [{ key := line_1, value := text_1 }], [], []] } ∧
      hash_table_remove
          { capacity := 4, resized := false, num_used := 1,
            storage := [[], [{ key := line_1, value := text_1 }], [], []] } line_1 =
        .ok { capacity := 4, resized := false, num_used := 1,
              storage := [[], [], [], []] } := by
  decide

/-- C3: after `create_hash_table(4)`, inserting `"line_1"` twice leaves two
nodes with that key in the chain (the second insert finds the match at the head
of the chain and only puts the new node in front); `hash_table_remove` unlinks
the first of them and `hash_table_retrieve` then returns the older value instead
of `NULL`. -/
theorem remove_leaves_older_node :
    run 1 (create_hash_table 4) [.insert line_1 text_1, .insert line_1 text_2] =
        .ok { capacity := 4, resized := false, num_used := 1,
              storage := [[], [{ key := line_1, value := text_2 },
                               { key := line_1, value := text_1 }], [], []] } ∧
      hash_table_retrieve
          { capacity := 4, resized := false, num_used := 1,
            storage := [[], [{ key := line_1, value := text_2 },
                             { key := line_1, value := text_1 }], [], []] } line_1 =
        .ok (some text_2) ∧
      hash_table_remove
          { capacity := 4, resized := false, num_used := 1,
            storage := [[], [{ key := line_1, value := text_2 },
                             { key := line_1, value := text_1 }], [], []] } line_1 =
        .ok { capacity := 4, resized := false, num_used := 1,
              storage := [[], [{ key := line_1, value := text_1 }], [], []] } ∧
      hash_table_retrieve
          { capacity := 4, resized := false, num_used := 1,
            storage := [[], [{ key := line_1, value := text_1 }], [], []] } line_1 =
        .ok (some text_1) := by
  decide

/-- C8: `hash_table_shrink` walks the old array only up to the new (halved)
capacity.  The table of capacity 2 with the single entry `"line_1"` in bucket
`hash "line_1" 2 = 1` shrinks to an empty table of capacity 1: the entry is
not re-inserted and `hash_table_retrieve` changes from its value to `NULL`. -/
theorem shrink_drops_upper_buckets :
    hash line_1 2 = 1 ∧
      hash_table_retrieve
          { capacity := 2, resized := false, num_used := 1,
            storage := [[], [{ key := line_1, value := text_1 }]] } line_1 =
        .ok (some text_1) ∧
      hash_table_shrink 1
          { capacity := 2, resized := false, num_used := 1,
            storage := [[], [{ key := line_1, value := text_1 }]] } =
        .ok { capacity := 1, resized := true, num_used := 0, storage := [[]] } ∧
      hash_table_retrieve
          { capacity := 1, resized := true, num_used := 0, storage := [[]] } line_1 =
        .ok none := by
  decide

/-- C7: after `create_hash_table(4)` and two inserts of `"line_1"` the chain
holds the newer node in front of the older one and retrieve returns the newer
value; `hash_table_resize` re-inserts them head first, which puts the older
node in front, so retrieve returns the older value after the resize. -/
theorem resize_reverses_equal_keys :
    run 1 (create_hash_table 4) [.insert line_1 text_1, .insert line_1 text_2] =
        .ok { capacity := 4, resized := false, num_used := 1,
              storage := [[], [{ key := line_1, value := text_2 },
                               { key := line_1, value := text_1 }], [], []] } ∧
      hash_table_retrieve
          { capacity := 4, resized := false, num_used := 1,
            storage := [[], [{ key := line_1, value := text_2 },
                             { key := line_1, value := text_1 }], [], []] } line_1 =
        .ok (some text_2) ∧
      hash_table_resize 1
          { capacity := 4, resized := false, num_used := 1,
            storage := [[], [{ key := line_1, value := text_2 },
                             { key := line_1, value := text_1 }], [], []] } =
        .ok { capacity := 8, resized := true, num_used := 1,
              storage := [[], [], [], [], [],
                          [{ key := line_1, value := text_1 },
                           { key := line_1, value := text_2 }], [], []] } ∧
      hash_table_retrieve
          { capacity := 8, resized := true, num_used := 1,
            storage := [[], [], [], [], [],
                        [{ key := line_1, value := text_1 },
                         { key := line_1, value := text_2 }], [], []] } line_1 =
        .ok (some text_1) := by
  decide

/-- C2: from `create_hash_table(3)`, insert `"line_1"` and `"line_2"` and remove
both: the table is empty with `num_used = 2`.  Inserting `"line_3"` then grows
the table to capacity 6 with `num_used = 1`; inserting `"line_3"` again
triggers a shrink to capacity 3 that walks buckets 0..2 only, while `"line_3"`
sits in bucket 3: the key is gone, retrieve returns `NULL` and `num_used` is 0
where it was 1 after the first of the two inserts. -/
theorem second_insert_loses_key :
    run 2 (create_hash_table 3)
        [.insert line_1 text_1, .insert line_2 text_2, .remove line_1, .remove line_2] =
        .ok { capacity := 3, resized := false, num_used := 2, storage := [[], [], []] } ∧
      hash_table_insert 2
          { capacity := 3, resized := false, num_used := 2, storage := [[], [], []] }
          line_3 text_1 =
        .ok { capacity := 6, resized := true, num_used := 1,
              storage := [[], [], [], [{ key := line_3, value := text_1 }], [], []] } ∧
      hash_table_insert 2
          { capacity := 6, resized := true, num_used := 1,
            storage := [[], [], [], [{ key := line_3, value := text_1 }], [], []] }
          line_3 text_3 =
        .ok { capacity := 3, resized := true, num_used := 0, storage := [[], [], []] } ∧
      hash_table_retrieve
          { capacity := 3, resized := true, num_used := 0, storage := [[], [], []] } line_3 =
        .ok none := by
  decide

/-! ## The store step of insert -/

theorem index_lt (ht : HashTable) (key : CStr) (h : WellFormed ht) :
    hash key ht.capacity < ht.storage.length := by
  rw [h.1]; exact hash_lt key _ h.2

theorem bucket_eq (ht : HashTable) (key : CStr) (h : WellFormed ht) :
    ht.storage[hash key ht.capacity]? = some (bucket ht key) := by
  have hlt := index_lt ht key h
  simp [bucket, List.getElem?_eq_getElem hlt]

theorem retrieve_eq (ht : HashTable) (key : CStr) (h : WellFormed ht) :
    hash_table_retrieve ht key = .ok (lookup ht key) := by
  have hne : ht.capacity ≠ 0 := by have := h.2; omega
  have hb := bucket_eq ht key h
  simp only [hash_table_retrieve, hne, if_false]
  rw [hb]
  rfl

theorem store_capacity (ht : HashTable) (pair : LinkedPair) :
    (store ht pair).capacity = ht.capacity := rfl

theorem store_resized (ht : HashTable) (pair : LinkedPair) :
    (store ht pair).resized = ht.resized := rfl

theorem store_wellFormed (ht : HashTable) (pair : LinkedPair) (h : WellFormed ht) :
    WellFormed (store ht pair) := by
  refine ⟨?_, h.2⟩
  simp [store, h.1]

theorem chain_replace_retrieve (pair : LinkedPair) (key : CStr) :
    ∀ (chain chain' : List LinkedPair), chain_replace pair chain = some chain' →
      chain_retrieve key chain' =
        if key = pair.key then some pair.value else chain_retrieve key chain := by
  intro chain
  induction chain with
  | nil => intro chain' h; simp [chain_replace] at h
  | cons curr next ih =>
    intro chain' h
    by_cases hk : curr.key = pair.key
    · simp only [chain_replace, hk, if_true, Option.some.injEq] at h
      subst h
      by_cases hkey : key = pair.key
      · simp [chain_retrieve, hkey]
      · have h1 : ¬ pair.key = key := fun e => hkey e.symm
        have h2 : ¬ curr.key = key := fun e => hkey (e.symm.trans hk)
        simp [chain_retrieve, hkey, h1, h2]
    · simp only [chain_replace, hk, if_false, Option.map_eq_some'] at h
      obtain ⟨rest', hrest, rfl⟩ := h
      have := ih rest' hrest
      by_cases hkey : key = pair.key
      · simp [chain_retrieve, hkey, hk] at this ⊢
        exact this
      · by_cases hc : curr.key = key
        · simp [chain_retrieve, hc, hkey]
        · simp [chain_retrieve, hc, hkey] at this ⊢
          exact this

theorem chain_insert_retrieve (pair : LinkedPair) (key : CStr) (chain : List LinkedPair) :
    chain_retrieve key (chain_insert pair chain).1 =
      if key = pair.key then some pair.value else chain_retrieve key chain := by
  cases chain with
  | nil =>
    by_cases hkey : key = pair.key
    · simp [chain_insert, chain_retrieve, hkey]
    · have h1 : ¬ pair.key = key := fun e => hkey e.symm
      simp [chain_insert, chain_retrieve, hkey, h1]
  | cons head rest =>
    by_cases hk : head.key = pair.key
    · by_cases hkey : key = pair.key
      · simp [chain_insert, chain_retrieve, hk, hkey]
      · have h1 : ¬ pair.key = key := fun e => hkey e.symm
        have h2 : ¬ head.key = key := fun e => hkey (e.symm.trans hk)
        simp [chain_insert, chain_retrieve, hk, hkey, h1, h2]
    · cases hr : chain_replace pair rest with
      | none =>
        by_cases hkey : key = pair.key
        · simp [chain_insert, chain_retrieve, hk, hkey, hr]
        · have h1 : ¬ pair.key = key := fun e => hkey e.symm
          simp [chain_insert, chain_retrieve, hk, hkey, hr, h1]
      | some rest' =>
        have := chain_replace_retrieve pair key rest rest' hr
        by_cases hkey : key = pair.key
        · simp [chain_insert, chain_retrieve, hk, hkey, hr] at this ⊢
          exact this
        · by_cases hc : head.key = key
          · simp [chain_insert, chain_retrieve, hk, hkey, hr, hc]
          · simp [chain_insert, chain_retrieve, hk, hkey, hr, hc] at this ⊢
            exact this

theorem mem_pair_keys (key : CStr) (pairs : List LinkedPair) :
    key ∈ pair_keys pairs ↔ ∃ p ∈ pairs, p.key = key := by
  simp [pair_keys]

theorem chain_replace_none (pair : LinkedPair) (chain : List LinkedPair)
    (h : chain_replace pair chain = none) : pair.key ∉ pair_keys chain := by
  induction chain with
  | nil => simp [pair_keys]
  | cons curr next ih =>
    by_cases hk : curr.key = pair.key
    · simp [chain_replace, hk] at h
    · simp only [chain_replace, hk, if_false, Option.map_eq_none'] at h
      have := ih h
      rw [mem_pair_keys] at this ⊢
      rintro ⟨p, hp, hpk⟩
      rcases List.mem_cons.mp hp with rfl | hp'
      · exact hk hpk
      · exact this ⟨p, hp', hpk⟩

theorem chain_replace_some (pair : LinkedPair) :
    ∀ (chain chain' : List LinkedPair), chain_replace pair chain = some chain' →
      pair.key ∈ pair_keys chain ∧ pair_keys chain' = pair_keys chain ∧
        ∀ q ∈ chain', q = pair ∨ q ∈ chain := by
  intro chain
  induction chain with
  | nil => intro chain' h; simp [chain_replace] at h
  | cons curr next ih =>
    intro chain' h
    by_cases hk : curr.key = pair.key
    · simp only [chain_replace, hk, if_true, Option.some.injEq] at h
      subst h
      refine ⟨?_, ?_, ?_⟩
      · simp [pair_keys, hk]
      · simp [pair_keys, hk]
      · intro q hq
        rcases List.mem_cons.mp hq with rfl | hq'
        · exact Or.inl rfl
        · exact Or.inr (List.mem_cons_of_mem _ hq')
    · simp only [chain_replace, hk, if_false, Option.map_eq_some'] at h
      obtain ⟨rest', hrest, rfl⟩ := h
      obtain ⟨h1, h2, h3⟩ := ih rest' hrest
      refine ⟨?_, ?_, ?_⟩
      · rw [mem_pair_keys] at h1 ⊢
        obtain ⟨p, hp, hpk⟩ := h1
        exact ⟨p, List.mem_cons_of_mem _ hp, hpk⟩
      · simp only [pair_keys, List.map_cons, List.toFinset_cons] at h2 ⊢
        rw [h2]
      · intro q hq
        rcases List.mem_cons.mp hq with rfl | hq'
        · exact Or.inr (List.mem_cons_self _ _)
        · rcases h3 q hq' with rfl | hq''
          · exact Or.inl rfl
          · exact Or.inr (List.mem_cons_of_mem _ hq'')

theorem chain_insert_keys (pair : LinkedPair) (chain : List LinkedPair) :
    pair_keys (chain_insert pair chain).1 = insert pair.key (pair_keys chain) := by
  cases chain with
  | nil => simp [chain_insert, pair_keys]
  | cons head rest =>
    by_cases hk : head.key = pair.key
    · simp [chain_insert, pair_keys, hk]
    · cases hr : chain_replace pair rest with
      | none => simp [chain_insert, pair_keys, hk, hr]
      | some rest' =>
        obtain ⟨h1, h2, _⟩ := chain_replace_some pair rest rest' hr
        simp only [chain_insert, hk, if_false, hr]
        simp only [pair_keys, List.map_cons, List.toFinset_cons] at h1 h2 ⊢
        rw [h2]
        exact (Finset.insert_eq_of_mem (Finset.mem_insert_of_mem h1)).symm

theorem chain_insert_flag (pair : LinkedPair) (chain : List LinkedPair) :
    (chain_insert pair chain).2 = true ↔ pair.key ∉ pair_keys chain := by
  cases chain with
  | nil => simp [chain_insert, pair_keys]
  | cons head rest =>
    by_cases hk : head.key = pair.key
    · simp [chain_insert, pair_keys, hk]
    · cases hr : chain_replace pair rest with
      | none =>
        have := chain_replace_none pair rest hr
        have hk' : ¬ pair.key = head.key := fun e => hk e.symm
        simp only [pair_keys] at this
        simp [chain_insert, pair_keys, hk, hr, hk']
        simpa using this
      | some rest' =>
        obtain ⟨h1, _, _⟩ := chain_replace_some pair rest rest' hr
        simp only [pair_keys] at h1
        simp only [chain_insert, hk, if_false, hr, pair_keys, List.map_cons,
          List.toFinset_cons, Finset.mem_insert, not_or]
        simp [h1]

theorem chain_insert_mem (pair : LinkedPair) (chain : List LinkedPair) :
    ∀ q ∈ (chain_insert pair chain).1, q = pair ∨ q ∈ chain := by
  cases chain with
  | nil => simp [chain_insert]
  | cons head rest =>
    by_cases hk : head.key = pair.key
    · simp [chain_insert, hk]
    · cases hr : chain_replace pair rest with
      | none => simp [chain_insert, hk, hr]
      | some rest' =>
        obtain ⟨_, _, h3⟩ := chain_replace_some pair rest rest' hr
        simp only [chain_insert, hk, if_false, hr]
        intro q hq
        rcases List.mem_cons.mp hq with rfl | hq'
        · exact Or.inr (List.mem_cons_self _ _)
        · rcases h3 q hq' with rfl | hq''
          · exact Or.inl rfl
          · exact Or.inr (List.mem_cons_of_mem _ hq'')

theorem storage_store (ht : HashTable) (pair : LinkedPair) (h : WellFormed ht) (j : Nat) :
    (store ht pair).storage[j]? =
      if j = hash pair.key ht.capacity then some (chain_insert pair (bucket ht pair.key)).1
      else ht.storage[j]? := by
  have hlt := index_lt ht pair.key h
  by_cases hj : j = hash pair.key ht.capacity
  · subst hj
    simp [store, List.getElem?_set_self hlt]
  · have hj' : hash pair.key ht.capacity ≠ j := fun e => hj e.symm
    simp [store, List.getElem?_set_ne hj', hj]

theorem mem_entries (ht : HashTable) (p : LinkedPair) :
    p ∈ entries ht ↔ ∃ (i : Nat) (chain : List LinkedPair), ht.storage[i]? = some chain ∧ p ∈ chain := by
  simp only [entries, List.mem_flatten]
  constructor
  · rintro ⟨chain, hc, hp⟩
    obtain ⟨i, hi⟩ := List.mem_iff_getElem?.mp hc
    exact ⟨i, chain, hi, hp⟩
  · rintro ⟨i, chain, hi, hp⟩
    exact ⟨chain, List.mem_iff_getElem?.mpr ⟨i, hi⟩, hp⟩

theorem mem_table_keys (ht : HashTable) (key : CStr) :
    key ∈ table_keys ht ↔
      ∃ (i : Nat) (chain : List LinkedPair), ht.storage[i]? = some chain ∧ key ∈ pair_keys chain := by
  simp only [table_keys, mem_pair_keys, mem_entries]
  constructor
  · rintro ⟨p, ⟨i, chain, hi, hp⟩, hk⟩
    exact ⟨i, chain, hi, p, hp, hk⟩
  · rintro ⟨i, chain, hi, p, hp, hk⟩
    exact ⟨p, ⟨i, chain, hi, hp⟩, hk⟩

theorem bucket_store (ht : HashTable) (pair : LinkedPair) (key : CStr) (h : WellFormed ht) :
    bucket (store ht pair) key =
      if hash key ht.capacity = hash pair.key ht.capacity
      then (chain_insert pair (bucket ht pair.key)).1 else bucket ht key := by
  unfold bucket
  rw [store_capacity, storage_store ht pair h]
  by_cases hj : hash key ht.capacity = hash pair.key ht.capacity
  · simp [hj, bucket]
  · simp [hj]

theorem lookup_store (ht : HashTable) (pair : LinkedPair) (key : CStr) (h : WellFormed ht) :
    lookup (store ht pair) key = if key = pair.key then some pair.value else lookup ht key := by
  unfold lookup
  rw [bucket_store ht pair key h]
  by_cases hkey : key = pair.key
  · subst hkey
    simp [chain_insert_retrieve]
  · by_cases hj : hash key ht.capacity = hash pair.key ht.capacity
    · simp only [hj, if_true, chain_insert_retrieve, hkey, if_false]
      unfold bucket
      rw [hj]
    · simp [hj, hkey]

theorem table_keys_store (ht : HashTable) (pair : LinkedPair) (h : WellFormed ht) :
    table_keys (store ht pair) = insert pair.key (table_keys ht) := by
  ext key
  rw [Finset.mem_insert, mem_table_keys, mem_table_keys]
  constructor
  · rintro ⟨j, chain, hj, hk⟩
    rw [storage_store ht pair h] at hj
    by_cases hji : j = hash pair.key ht.capacity
    · simp only [hji, if_true, Option.some.injEq] at hj
      subst hj
      rw [chain_insert_keys, Finset.mem_insert] at hk
      rcases hk with hk | hk
      · exact Or.inl hk
      · exact Or.inr ⟨_, _, bucket_eq ht pair.key h, hk⟩
    · simp only [hji, if_false] at hj
      exact Or.inr ⟨j, chain, hj, hk⟩
  · rintro (hk | ⟨j, chain, hj, hk⟩)
    · refine ⟨hash pair.key ht.capacity, (chain_insert pair (bucket ht pair.key)).1, ?_, ?_⟩
      · rw [storage_store ht pair h]; simp
      · rw [chain_insert_keys, hk]; exact Finset.mem_insert_self _ _
    · by_cases hji : j = hash pair.key ht.capacity
      · refine ⟨hash pair.key ht.capacity, (chain_insert pair (bucket ht pair.key)).1, ?_, ?_⟩
        · rw [storage_store ht pair h]; simp
        · rw [chain_insert_keys]
          have hb := bucket_eq ht pair.key h
          rw [← hji, hj, Option.some.injEq] at hb
          rw [← hb]
          exact Finset.mem_insert_of_mem hk
      · refine ⟨j, chain, ?_, hk⟩
        rw [storage_store ht pair h]; simp [hji, hj]

theorem entries_store (ht : HashTable) (pair : LinkedPair) (h : WellFormed ht) :
    ∀ q ∈ entries (store ht pair), q = pair ∨ q ∈ entries ht := by
  intro q hq
  rw [mem_entries] at hq
  obtain ⟨j, chain, hj, hqc⟩ := hq
  rw [storage_store ht pair h] at hj
  by_cases hji : j = hash pair.key ht.capacity
  · simp only [hji, if_true, Option.some.injEq] at hj
    subst hj
    rcases chain_insert_mem pair _ q hqc with hq' | hq'
    · exact Or.inl hq'
    · exact Or.inr ((mem_entries ht q).mpr ⟨_, _, bucket_eq ht pair.key h, hq'⟩)
  · simp only [hji, if_false] at hj
    exact Or.inr ((mem_entries ht q).mpr ⟨j, chain, hj, hqc⟩)

theorem store_bucketsOK (ht : HashTable) (pair : LinkedPair) (h : WellFormed ht)
    (hb : BucketsOK ht) : BucketsOK (store ht pair) := by
  intro j chain hj q hq
  rw [store_capacity]
  rw [storage_store ht pair h] at hj
  by_cases hji : j = hash pair.key ht.capacity
  · simp only [hji, if_true, Option.some.injEq] at hj
    subst hj
    rcases chain_insert_mem pair _ q hq with hq' | hq'
    · rw [hq', hji]
    · rw [hji]; exact hb _ _ (bucket_eq ht pair.key h) q hq'
  · simp only [hji, if_false] at hj
    exact hb j chain hj q hq

theorem mem_table_keys_bucket (ht : HashTable) (key : CStr) (h : WellFormed ht)
    (hb : BucketsOK ht) : key ∈ table_keys ht ↔ key ∈ pair_keys (bucket ht key) := by
  rw [mem_table_keys]
  constructor
  · rintro ⟨j, chain, hj, hk⟩
    obtain ⟨p, hp, hpk⟩ := (mem_pair_keys key chain).mp hk
    have hidx := hb j chain hj p hp
    rw [hpk] at hidx
    have hbk := bucket_eq ht key h
    rw [hidx, hj, Option.some.injEq] at hbk
    rw [← hbk]; exact hk
  · intro hk
    exact ⟨_, _, bucket_eq ht key h, hk⟩

theorem store_num_used (ht : HashTable) (pair : LinkedPair) (h : WellFormed ht)
    (hb : BucketsOK ht) :
    (store ht pair).num_used =
      if pair.key ∈ table_keys ht then ht.num_used else ht.num_used + 1 := by
  have hflag := chain_insert_flag pair (bucket ht pair.key)
  rw [← mem_table_keys_bucket ht pair.key h hb] at hflag
  by_cases hk : pair.key ∈ table_keys ht
  · have : (chain_insert pair (bucket ht pair.key)).2 = false := by
      cases hf : (chain_insert pair (bucket ht pair.key)).2
      · rfl
      · exact absurd hk (hflag.mp hf)
    simp [store, this, hk]
  · simp [store, hflag.mpr hk, hk]

theorem store_tidy (ht : HashTable) (pair : LinkedPair) (h : Tidy ht) :
    Tidy (store ht pair) := by
  obtain ⟨hw, hb, hn⟩ := h
  refine ⟨store_wellFormed ht pair hw, store_bucketsOK ht pair hw hb, ?_⟩
  rw [store_num_used ht pair hw hb, table_keys_store ht pair hw]
  by_cases hk : pair.key ∈ table_keys ht
  · simp [hk, hn]
  · simp [hk, hn, Finset.card_insert_of_not_mem hk]

theorem int_max_eq : INT_MAX = 2147483647 := by decide

theorem insert_store_eq (ht : HashTable) (key value : CStr) (h : WellFormed ht)
    (hn : key ∉ pair_keys (bucket ht key) → ht.num_used < INT_MAX) :
    insert_store ht key value = .ok (store ht (create_pair key value)) := by
  have hne : ht.capacity ≠ 0 := by have := h.2; omega
  have hb := bucket_eq ht key h
  have hflag := chain_insert_flag (create_pair key value) (bucket ht key)
  have hov : ¬ ((chain_insert (create_pair key value) (bucket ht key)).2 = true ∧
      INT_MAX ≤ ht.num_used) := by
    rintro ⟨hf, hle⟩
    have := hn (hflag.mp hf)
    omega
  simp only [insert_store, hne, if_false]
  rw [hb]
  simp only [hov, if_false]
  rfl

theorem insert_store_overflow (ht : HashTable) (key value : CStr) (h : WellFormed ht)
    (hnew : key ∉ pair_keys (bucket ht key)) (hn : INT_MAX ≤ ht.num_used) :
    insert_store ht key value = .undefined := by
  have hne : ht.capacity ≠ 0 := by have := h.2; omega
  have hb := bucket_eq ht key h
  have hflag := chain_insert_flag (create_pair key value) (bucket ht key)
  have hov : (chain_insert (create_pair key value) (bucket ht key)).2 = true ∧
      INT_MAX ≤ ht.num_used := ⟨hflag.mpr hnew, hn⟩
  simp only [insert_store, hne, if_false]
  rw [hb]
  simp only [hov, and_self, if_true]

theorem create_pair_eta (p : LinkedPair) : create_pair p.key p.value = p := rfl

theorem insert_succ (fuel : Nat) (ht : HashTable) (key value : CStr) (h : WellFormed ht)
    (hn : key ∉ pair_keys (bucket ht key) → ht.num_used < INT_MAX) :
    hash_table_insert (fuel + 1) ht key value =
      load_check (hash_table_insert fuel) (store ht (create_pair key value)) := by
  simp [hash_table_insert, insert_store_eq ht key value h hn]

theorem insert_of_store_undefined (fuel : Nat) (ht : HashTable) (key value : CStr)
    (h : insert_store ht key value = .undefined) :
    hash_table_insert (fuel + 1) ht key value = .undefined := by
  simp [hash_table_insert, h]

theorem load_check_quiet (ins : HashTable → CStr → CStr → Outcome HashTable) (ht : HashTable)
    (h1 : 10 * ht.num_used ≤ 7 * ht.capacity)
    (h2 : ht.resized = false ∨ ht.capacity ≤ 5 * ht.num_used) :
    load_check ins ht = .ok ht := by
  have h1' : ¬ 7 * ht.capacity < 10 * ht.num_used := by omega
  have h2' : ¬ (ht.resized = true ∧ 5 * ht.num_used < ht.capacity) := by
    rintro ⟨hr, hlt⟩
    rcases h2 with h2 | h2
    · rw [hr] at h2; exact Bool.noConfusion h2
    · omega
  simp [load_check, h1', h2']

theorem fill_nil (ht : HashTable) : fill ht [] = ht := rfl

theorem fill_cons (ht : HashTable) (p : LinkedPair) (pairs : List LinkedPair) :
    fill ht (p :: pairs) = fill (store ht p) pairs := rfl

theorem fill_append (ht : HashTable) (l1 l2 : List LinkedPair) :
    fill ht (l1 ++ l2) = fill (fill ht l1) l2 := by
  simp [fill, List.foldl_append]

theorem fill_capacity (pairs : List LinkedPair) :
    ∀ ht : HashTable, (fill ht pairs).capacity = ht.capacity := by
  induction pairs with
  | nil => intro ht; rfl
  | cons p rest ih => intro ht; rw [fill_cons, ih, store_capacity]

theorem fill_resized (pairs : List LinkedPair) :
    ∀ ht : HashTable, (fill ht pairs).resized = ht.resized := by
  induction pairs with
  | nil => intro ht; rfl
  | cons p rest ih => intro ht; rw [fill_cons, ih, store_resized]

theorem fill_tidy (pairs : List LinkedPair) :
    ∀ ht : HashTable, Tidy ht → Tidy (fill ht pairs) := by
  induction pairs with
  | nil => intro ht h; exact h
  | cons p rest ih => intro ht h; rw [fill_cons]; exact ih _ (store_tidy ht p h)

theorem pair_keys_cons (p : LinkedPair) (pairs : List LinkedPair) :
    pair_keys (p :: pairs) = insert p.key (pair_keys pairs) := by
  simp [pair_keys]

theorem pair_keys_append (l1 l2 : List LinkedPair) :
    pair_keys (l1 ++ l2) = pair_keys l1 ∪ pair_keys l2 := by
  simp [pair_keys, List.toFinset_append]

theorem table_keys_fill (pairs : List LinkedPair) :
    ∀ ht : HashTable, WellFormed ht →
      table_keys (fill ht pairs) = table_keys ht ∪ pair_keys pairs := by
  induction pairs with
  | nil => intro ht _; simp [fill_nil, pair_keys]
  | cons p rest ih =>
    intro ht h
    rw [fill_cons, ih _ (store_wellFormed ht p h), table_keys_store ht p h, pair_keys_cons]
    ext key
    simp only [Finset.mem_union, Finset.mem_insert]
    tauto

theorem entries_fill (pairs : List LinkedPair) :
    ∀ ht : HashTable, WellFormed ht →
      ∀ q ∈ entries (fill ht pairs), q ∈ pairs ∨ q ∈ entries ht := by
  induction pairs with
  | nil => intro ht _ q hq; exact Or.inr hq
  | cons p rest ih =>
    intro ht h q hq
    rw [fill_cons] at hq
    rcases ih _ (store_wellFormed ht p h) q hq with hq' | hq'
    · exact Or.inl (List.mem_cons_of_mem _ hq')
    · rcases entries_store ht p h q hq' with rfl | hq''
      · exact Or.inl (List.mem_cons_self _ _)
      · exact Or.inr hq''
/-! ## The loops of a rebuild and the fresh table they start from -/

theorem walk_chain_append (ins : HashTable → CStr → CStr → Outcome HashTable)
    (l1 l2 : List LinkedPair) :
    ∀ ht : HashTable, walk_chain ins (l1 ++ l2) ht =
      match walk_chain ins l1 ht with
      | .ok ht' => walk_chain ins l2 ht'
      | .undefined => .undefined
      | .out_of_fuel => .out_of_fuel := by
  induction l1 with
  | nil => intro ht; rfl
  | cons p rest ih =>
    intro ht
    simp only [List.cons_append, walk_chain]
    cases ins ht p.key p.value with
    | ok ht' => exact ih ht'
    | undefined => rfl
    | out_of_fuel => rfl

theorem resize_loop_flatten (ins : HashTable → CStr → CStr → Outcome HashTable)
    (buckets : List (List LinkedPair)) :
    ∀ ht : HashTable,
      resize_loop ins buckets buckets.length ht = walk_chain ins buckets.flatten ht := by
  induction buckets with
  | nil => intro ht; rfl
  | cons chain rest ih =>
    intro ht
    simp only [List.length_cons, resize_loop, List.flatten_cons, walk_chain_append]
    cases walk_chain ins chain ht with
    | ok ht' => exact ih ht'
    | undefined => rfl
    | out_of_fuel => rfl

theorem init_wellFormed (ht : HashTable) (c : Nat) (hc : 1 ≤ c) :
    WellFormed (init_hash_table ht c) := by
  simp [WellFormed, init_hash_table, hc]

theorem init_storage (ht : HashTable) (c i : Nat) (chain : List LinkedPair)
    (h : (init_hash_table ht c).storage[i]? = some chain) : chain = [] := by
  simp only [init_hash_table, List.getElem?_replicate] at h
  by_cases hi : i < c
  · simp [hi] at h; exact h
  · simp [hi] at h

theorem init_entries (ht : HashTable) (c : Nat) (q : LinkedPair) :
    q ∉ entries (init_hash_table ht c) := by
  rw [mem_entries]
  rintro ⟨i, chain, hi, hq⟩
  rw [init_storage ht c i chain hi] at hq
  exact List.not_mem_nil _ hq

theorem init_table_keys (ht : HashTable) (c : Nat) :
    table_keys (init_hash_table ht c) = ∅ := by
  ext key
  simp only [table_keys, mem_pair_keys, Finset.not_mem_empty, iff_false]
  rintro ⟨p, hp, _⟩
  exact init_entries ht c p hp

theorem init_tidy (ht : HashTable) (c : Nat) (hc : 1 ≤ c) :
    Tidy (init_hash_table ht c) := by
  refine ⟨init_wellFormed ht c hc, ?_, ?_⟩
  · intro i chain hi p hp
    rw [init_storage ht c i chain hi] at hp
    exact absurd hp (List.not_mem_nil _)
  · rw [init_table_keys]; rfl

/-! ## Rebuilds whose re-inserts trigger no further rebuild -/

theorem rebuild_due_false (ht : HashTable)
    (h1 : 10 * ht.num_used ≤ 7 * ht.capacity)
    (h2 : ht.resized = false ∨ ht.capacity ≤ 5 * ht.num_used) :
    rebuild_due ht = false := by
  unfold rebuild_due
  rw [decide_eq_false_iff_not]
  rintro ⟨_, hgrow | ⟨hr, hlt⟩⟩
  · omega
  · rcases h2 with h2 | h2
    · rw [hr] at h2; exact Bool.noConfusion h2
    · omega

theorem load_check_not_due (ins : HashTable → CStr → CStr → Outcome HashTable)
    (ht : HashTable) (h : rebuild_due ht = false) : load_check ins ht = .ok ht := by
  unfold rebuild_due at h
  rw [decide_eq_false_iff_not] at h
  unfold load_check
  by_cases h0 : 0 < ht.capacity
  · have h1 : ¬ 7 * ht.capacity < 10 * ht.num_used := fun hg => h ⟨h0, Or.inl hg⟩
    have h2 : ¬ (ht.resized = true ∧ 5 * ht.num_used < ht.capacity) :=
      fun hs => h ⟨h0, Or.inr hs⟩
    simp [h0, h1, h2]
  · simp [h0]

theorem plain_insert (fuel : Nat) : Plain (hash_table_insert (fuel + 1)) := by
  intro t p hw hn hdue
  rw [insert_succ fuel t p.key p.value hw hn, create_pair_eta]
  exact load_check_not_due _ _ hdue

theorem plain_no_rebuild : Plain insert_no_rebuild := by
  intro t p hw hn hdue
  simp [insert_no_rebuild, insert_store_eq t p.key p.value hw hn, create_pair_eta, hdue]

theorem walk_plain (ins : HashTable → CStr → CStr → Outcome HashTable) (hins : Plain ins)
    (pairs : List LinkedPair) :
    ∀ ht : HashTable, Tidy ht → ht.resized = false →
      10 * (table_keys ht ∪ pair_keys pairs).card ≤ 7 * ht.capacity →
      (table_keys ht ∪ pair_keys pairs).card ≤ INT_MAX →
      walk_chain ins pairs ht = .ok (fill ht pairs) := by
  induction pairs with
  | nil => intro ht _ _ _ _; rfl
  | cons p rest ih =>
    intro ht h hr hload hmax
    have h1 := store_tidy ht p h
    have hkeys : table_keys (store ht p) ∪ pair_keys rest =
        table_keys ht ∪ pair_keys (p :: rest) := by
      rw [table_keys_store ht p h.1, pair_keys_cons]
      ext key
      simp only [Finset.mem_union, Finset.mem_insert]
      tauto
    have hcard : (store ht p).num_used ≤ (table_keys ht ∪ pair_keys (p :: rest)).card := by
      rw [h1.2.2, ← hkeys]
      exact Finset.card_le_card Finset.subset_union_left
    have hn : p.key ∉ pair_keys (bucket ht p.key) → ht.num_used < INT_MAX := by
      intro hnew
      have hnew' : p.key ∉ table_keys ht :=
        fun hmem => hnew ((mem_table_keys_bucket ht p.key h.1 h.2.1).mp hmem)
      have hnum := store_num_used ht p h.1 h.2.1
      simp only [hnew', if_false] at hnum
      omega
    have hstep : ins ht p.key p.value = .ok (store ht p) := by
      apply hins ht p h.1 hn
      apply rebuild_due_false
      · rw [store_capacity]; omega
      · left; rw [store_resized]; exact hr
    simp only [walk_chain, hstep]
    rw [fill_cons]
    apply ih _ h1
    · rw [store_resized]; exact hr
    · rw [hkeys, store_capacity]; exact hload
    · rw [hkeys]; exact hmax

theorem resize_plain (ins : HashTable → CStr → CStr → Outcome HashTable) (hins : Plain ins)
    (ht : HashTable) (h : WellFormed ht)
    (hload : 10 * (table_keys ht).card ≤ 14 * ht.capacity)
    (hmax : ht.capacity * 2 ≤ INT_MAX) :
    hash_table_resize_with ins ht = .ok (grown ht) := by
  have hwalk : resize_loop ins ht.storage ht.capacity
      (init_hash_table ht (ht.capacity * 2)) =
        .ok (fill (init_hash_table ht (ht.capacity * 2)) (entries ht)) := by
    have hcap : (init_hash_table ht (ht.capacity * 2)).capacity = ht.capacity * 2 := rfl
    have hpos : 1 ≤ ht.capacity * 2 := by have := h.2; omega
    have hw := walk_plain ins hins (entries ht) (init_hash_table ht (ht.capacity * 2))
      (init_tidy ht (ht.capacity * 2) hpos) rfl
      (by rw [init_table_keys, Finset.empty_union, hcap]
          show 10 * (table_keys ht).card ≤ 7 * (ht.capacity * 2)
          omega)
      (by rw [init_table_keys, Finset.empty_union]
          show (table_keys ht).card ≤ INT_MAX
          omega)
    rw [← hw]
    have hlen := h.1
    generalize init_hash_table ht (ht.capacity * 2) = t0
    rw [← hlen]
    exact resize_loop_flatten ins ht.storage t0
  have hov : ¬ INT_MAX < ht.capacity * 2 := by omega
  simp only [hash_table_resize_with, hov, if_false, hwalk]
  rfl

theorem resize_overflow (ins : HashTable → CStr → CStr → Outcome HashTable)
    (ht : HashTable) (hmax : INT_MAX < ht.capacity * 2) :
    hash_table_resize_with ins ht = .undefined := by
  simp [hash_table_resize_with, hmax]

theorem shrink_loop_plain (ins : HashTable → CStr → CStr → Outcome HashTable)
    (hins : Plain ins) (buckets : List (List LinkedPair)) :
    ∀ (i : Nat) (ht : HashTable), Tidy ht → ht.resized = false → i ≤ ht.capacity →
      ht.capacity - i ≤ buckets.length →
      10 * (table_keys ht ∪ pair_keys (buckets.take (ht.capacity - i)).flatten).card
        ≤ 7 * ht.capacity →
      (table_keys ht ∪ pair_keys (buckets.take (ht.capacity - i)).flatten).card ≤ INT_MAX →
      shrink_loop ins buckets i ht =
        .ok (fill ht (buckets.take (ht.capacity - i)).flatten) := by
  induction buckets with
  | nil =>
    intro i ht _ _ _ hlen _ _
    have hi : ¬ i < ht.capacity := by simp at hlen; omega
    simp [shrink_loop, hi, fill_nil]
  | cons chain rest ih =>
    intro i ht h hr hle hlen hload hmax
    by_cases hi : i < ht.capacity
    · have hsub : ht.capacity - i = (ht.capacity - (i + 1)) + 1 := by omega
      rw [hsub, List.take_succ_cons, List.flatten_cons] at hload hmax ⊢
      rw [pair_keys_append] at hload hmax
      have hsubset : table_keys ht ∪ pair_keys chain ⊆
          table_keys ht ∪
            (pair_keys chain ∪ pair_keys (List.take (ht.capacity - (i + 1)) rest).flatten) := by
        intro key hk
        simp only [Finset.mem_union] at hk ⊢
        tauto
      have hwalk : walk_chain ins chain ht = .ok (fill ht chain) := by
        apply walk_plain ins hins chain ht h hr
        · exact le_trans (Nat.mul_le_mul_left 10 (Finset.card_le_card hsubset)) hload
        · exact le_trans (Finset.card_le_card hsubset) hmax
      simp only [shrink_loop, hi, if_true, hwalk]
      have hcap := fill_capacity chain ht
      have := ih (i + 1) (fill ht chain) (fill_tidy chain ht h)
        (by rw [fill_resized]; exact hr) (by rw [hcap]; omega)
        (by rw [hcap]; simp at hlen; omega)
        (by rw [hcap, table_keys_fill chain ht h.1, Finset.union_assoc]; exact hload)
        (by rw [hcap, table_keys_fill chain ht h.1, Finset.union_assoc]; exact hmax)
      rw [this, hcap, fill_append]
    · have h0 : ht.capacity - i = 0 := by omega
      simp [shrink_loop, hi, h0, fill_nil]

theorem shrink_plain (ins : HashTable → CStr → CStr → Outcome HashTable) (hins : Plain ins)
    (ht : HashTable) (h : WellFormed ht) (hcap : 2 ≤ ht.capacity)
    (hload : 10 * (pair_keys (ht.storage.take (ht.capacity / 2)).flatten).card
      ≤ 7 * (ht.capacity / 2))
    (hmax : (pair_keys (ht.storage.take (ht.capacity / 2)).flatten).card ≤ INT_MAX) :
    hash_table_shrink_with ins ht = .ok (shrunk ht) := by
  have hpos : 1 ≤ ht.capacity / 2 := by omega
  have hloop := shrink_loop_plain ins hins ht.storage 0 (init_hash_table ht (ht.capacity / 2))
    (init_tidy ht (ht.capacity / 2) hpos) rfl (Nat.zero_le _)
    (by show ht.capacity / 2 - 0 ≤ ht.storage.length
        rw [h.1]; omega)
    (by rw [init_table_keys, Finset.empty_union]; exact hload)
    (by rw [init_table_keys, Finset.empty_union]; exact hmax)
  simp only [hash_table_shrink_with, hloop]
  rfl

/-! ## More fuel never changes a result -/

theorem walk_chain_mono (ins ins' : HashTable → CStr → CStr → Outcome HashTable)
    (hext : ∀ ht k v r, ins ht k v = .ok r → ins' ht k v = .ok r) (pairs : List LinkedPair) :
    ∀ ht r, walk_chain ins pairs ht = .ok r → walk_chain ins' pairs ht = .ok r := by
  induction pairs with
  | nil => intro ht r h; exact h
  | cons p rest ih =>
    intro ht r h
    simp only [walk_chain] at h ⊢
    cases hins : ins ht p.key p.value with
    | ok ht' =>
      rw [hins] at h
      rw [hext _ _ _ _ hins]
      exact ih ht' r h
    | undefined => rw [hins] at h; cases h
    | out_of_fuel => rw [hins] at h; cases h

theorem resize_loop_mono (ins ins' : HashTable → CStr → CStr → Outcome HashTable)
    (hext : ∀ ht k v r, ins ht k v = .ok r → ins' ht k v = .ok r)
    (buckets : List (List LinkedPair)) :
    ∀ todo ht r, resize_loop ins buckets todo ht = .ok r →
      resize_loop ins' buckets todo ht = .ok r := by
  induction buckets with
  | nil =>
    intro todo ht r h
    cases todo with
    | zero => exact h
    | succ n => simp [resize_loop] at h
  | cons chain rest ih =>
    intro todo ht r h
    cases todo with
    | zero => exact h
    | succ n =>
      simp only [resize_loop] at h ⊢
      cases hw : walk_chain ins chain ht with
      | ok ht' =>
        rw [hw] at h
        rw [walk_chain_mono ins ins' hext chain ht ht' hw]
        exact ih n ht' r h
      | undefined => rw [hw] at h; cases h
      | out_of_fuel => rw [hw] at h; cases h

theorem shrink_loop_mono (ins ins' : HashTable → CStr → CStr → Outcome HashTable)
    (hext : ∀ ht k v r, ins ht k v = .ok r → ins' ht k v = .ok r)
    (buckets : List (List LinkedPair)) :
    ∀ i ht r, shrink_loop ins buckets i ht = .ok r →
      shrink_loop ins' buckets i ht = .ok r := by
  induction buckets with
  | nil => intro i ht r h; exact h
  | cons chain rest ih =>
    intro i ht r h
    simp only [shrink_loop] at h ⊢
    by_cases hi : i < ht.capacity
    · simp only [hi, if_true] at h ⊢
      cases hw : walk_chain ins chain ht with
      | ok ht' =>
        rw [hw] at h
        rw [walk_chain_mono ins ins' hext chain ht ht' hw]
        exact ih (i + 1) ht' r h
      | undefined => rw [hw] at h; cases h
      | out_of_fuel => rw [hw] at h; cases h
    · simp only [hi, if_false] at h ⊢
      exact h

theorem load_check_mono (ins ins' : HashTable → CStr → CStr → Outcome HashTable)
    (hext : ∀ ht k v r, ins ht k v = .ok r → ins' ht k v = .ok r) (ht r : HashTable)
    (h : load_check ins ht = .ok r) : load_check ins' ht = .ok r := by
  unfold load_check at h ⊢
  by_cases h0 : 0 < ht.capacity
  · simp only [h0, if_true] at h ⊢
    by_cases h1 : 7 * ht.capacity < 10 * ht.num_used
    · simp only [h1, if_true, hash_table_resize_with] at h ⊢
      by_cases hov : INT_MAX < ht.capacity * 2
      · simp only [hov, if_true] at h
        cases h
      · simp only [hov, if_false] at h ⊢
        cases hl : resize_loop ins ht.storage ht.capacity
            (init_hash_table ht (ht.capacity * 2)) with
        | ok ht' =>
          rw [hl] at h
          rw [resize_loop_mono ins ins' hext _ _ _ _ hl]
          exact h
        | undefined => rw [hl] at h; cases h
        | out_of_fuel => rw [hl] at h; cases h
    · simp only [h1, if_false] at h ⊢
      by_cases h2 : ht.resized = true ∧ 5 * ht.num_used < ht.capacity
      · simp only [h2, and_self, if_true, hash_table_shrink_with] at h ⊢
        cases hl : shrink_loop ins ht.storage 0 (init_hash_table ht (ht.capacity / 2)) with
        | ok ht' =>
          rw [hl] at h
          rw [shrink_loop_mono ins ins' hext _ _ _ _ hl]
          exact h
        | undefined => rw [hl] at h; cases h
        | out_of_fuel => rw [hl] at h; cases h
      · simp only [h2, if_false] at h ⊢
        exact h
  · simp only [h0, if_false] at h ⊢
    exact h

theorem insert_mono (fuel : Nat) :
    ∀ ht k v r, hash_table_insert fuel ht k v = .ok r →
      hash_table_insert (fuel + 1) ht k v = .ok r := by
  induction fuel with
  | zero => intro ht k v r h; simp [hash_table_insert] at h
  | succ n ih =>
    intro ht k v r h
    rw [hash_table_insert] at h ⊢
    cases hs : insert_store ht k v with
    | ok ht1 =>
      rw [hs] at h
      exact load_check_mono _ _ ih ht1 r h
    | undefined => rw [hs] at h; cases h
    | out_of_fuel => rw [hs] at h; cases h

theorem insert_mono_le (fuel fuel' : Nat) (hle : fuel ≤ fuel') (ht : HashTable) (k v : CStr)
    (r : HashTable) (h : hash_table_insert fuel ht k v = .ok r) :
    hash_table_insert fuel' ht k v = .ok r := by
  induction hle with
  | refl => exact h
  | step _ ih => exact insert_mono _ ht k v r ih

theorem insert_deterministic (fuel fuel' : Nat) (ht : HashTable) (k v : CStr) (r r' : HashTable)
    (h : hash_table_insert fuel ht k v = .ok r) (h' : hash_table_insert fuel' ht k v = .ok r') :
    r = r' := by
  have h1 := insert_mono_le fuel (max fuel fuel') (le_max_left _ _) ht k v r h
  have h2 := insert_mono_le fuel' (max fuel fuel') (le_max_right _ _) ht k v r' h'
  rw [h1] at h2
  exact Outcome.ok.inj h2


/-! ## An outcome other than `out_of_fuel` is the same with more fuel -/

theorem walk_chain_stable (ins ins' : HashTable → CStr → CStr → Outcome HashTable)
    (hext : ∀ ht k v, ins ht k v ≠ .out_of_fuel → ins' ht k v = ins ht k v)
    (pairs : List LinkedPair) :
    ∀ ht, walk_chain ins pairs ht ≠ .out_of_fuel →
      walk_chain ins' pairs ht = walk_chain ins pairs ht := by
  induction pairs with
  | nil => intro ht _; rfl
  | cons p rest ih =>
    intro ht h
    simp only [walk_chain] at h ⊢
    cases hins : ins ht p.key p.value with
    | ok ht' =>
      rw [hins] at h
      rw [hext ht p.key p.value (by rw [hins]; simp), hins]
      exact ih ht' h
    | undefined =>
      rw [hext ht p.key p.value (by rw [hins]; simp), hins]
    | out_of_fuel => rw [hins] at h; exact absurd rfl h

theorem resize_loop_stable (ins ins' : HashTable → CStr → CStr → Outcome HashTable)
    (hext : ∀ ht k v, ins ht k v ≠ .out_of_fuel → ins' ht k v = ins ht k v)
    (buckets : List (List LinkedPair)) :
    ∀ todo ht, resize_loop ins buckets todo ht ≠ .out_of_fuel →
      resize_loop ins' buckets todo ht = resize_loop ins buckets todo ht := by
  induction buckets with
  | nil =>
    intro todo ht _
    cases todo <;> rfl
  | cons chain rest ih =>
    intro todo ht h
    cases todo with
    | zero => rfl
    | succ n =>
      simp only [resize_loop] at h ⊢
      cases hw : walk_chain ins chain ht with
      | ok ht' =>
        rw [hw] at h
        rw [walk_chain_stable ins ins' hext chain ht (by rw [hw]; simp), hw]
        exact ih n ht' h
      | undefined =>
        rw [walk_chain_stable ins ins' hext chain ht (by rw [hw]; simp), hw]
      | out_of_fuel => rw [hw] at h; exact absurd rfl h

theorem shrink_loop_stable (ins ins' : HashTable → CStr → CStr → Outcome HashTable)
    (hext : ∀ ht k v, ins ht k v ≠ .out_of_fuel → ins' ht k v = ins ht k v)
    (buckets : List (List LinkedPair)) :
    ∀ i ht, shrink_loop ins buckets i ht ≠ .out_of_fuel →
      shrink_loop ins' buckets i ht = shrink_loop ins buckets i ht := by
  induction buckets with
  | nil => intro i ht _; rfl
  | cons chain rest ih =>
    intro i ht h
    simp only [shrink_loop] at h ⊢
    by_cases hi : i < ht.capacity
    · simp only [hi, if_true] at h ⊢
      cases hw : walk_chain ins chain ht with
      | ok ht' =>
        rw [hw] at h
        rw [walk_chain_stable ins ins' hext chain ht (by rw [hw]; simp), hw]
        exact ih (i + 1) ht' h
      | undefined =>
        rw [walk_chain_stable ins ins' hext chain ht (by rw [hw]; simp), hw]
      | out_of_fuel => rw [hw] at h; exact absurd rfl h
    · simp only [hi, if_false]

theorem load_check_stable (ins ins' : HashTable → CStr → CStr → Outcome HashTable)
    (hext : ∀ ht k v, ins ht k v ≠ .out_of_fuel → ins' ht k v = ins ht k v) (ht : HashTable)
    (h : load_check ins ht ≠ .out_of_fuel) : load_check ins' ht = load_check ins ht := by
  unfold load_check at h ⊢
  by_cases h0 : 0 < ht.capacity
  · simp only [h0, if_true] at h ⊢
    by_cases h1 : 7 * ht.capacity < 10 * ht.num_used
    · simp only [h1, if_true, hash_table_resize_with] at h ⊢
      by_cases hov : INT_MAX < ht.capacity * 2
      · simp only [hov, if_true]
      · simp only [hov, if_false] at h ⊢
        cases hl : resize_loop ins ht.storage ht.capacity
            (init_hash_table ht (ht.capacity * 2)) with
        | ok ht' => rw [resize_loop_stable ins ins' hext _ _ _ (by rw [hl]; simp), hl]
        | undefined => rw [resize_loop_stable ins ins' hext _ _ _ (by rw [hl]; simp), hl]
        | out_of_fuel => rw [hl] at h; exact absurd rfl h
    · simp only [h1, if_false] at h ⊢
      by_cases h2 : ht.resized = true ∧ 5 * ht.num_used < ht.capacity
      · simp only [h2, and_self, if_true, hash_table_shrink_with] at h ⊢
        cases hl : shrink_loop ins ht.storage 0 (init_hash_table ht (ht.capacity / 2)) with
        | ok ht' => rw [shrink_loop_stable ins ins' hext _ _ _ (by rw [hl]; simp), hl]
        | undefined => rw [shrink_loop_stable ins ins' hext _ _ _ (by rw [hl]; simp), hl]
        | out_of_fuel => rw [hl] at h; exact absurd rfl h
      · simp only [h2, if_false]
  · simp only [h0, if_false]

theorem insert_stable (fuel : Nat) :
    ∀ ht k v, hash_table_insert fuel ht k v ≠ .out_of_fuel →
      hash_table_insert (fuel + 1) ht k v = hash_table_insert fuel ht k v := by
  induction fuel with
  | zero => intro ht k v h; exact absurd rfl h
  | succ n ih =>
    intro ht k v h
    rw [hash_table_insert] at h
    rw [hash_table_insert, hash_table_insert]
    cases hs : insert_store ht k v with
    | ok ht1 =>
      rw [hs] at h
      exact load_check_stable _ _ ih ht1 h
    | undefined => rfl
    | out_of_fuel => rfl

theorem insert_stable_le (fuel fuel' : Nat) (hle : fuel ≤ fuel') (ht : HashTable) (k v : CStr)
    (h : hash_table_insert fuel ht k v ≠ .out_of_fuel) :
    hash_table_insert fuel' ht k v = hash_table_insert fuel ht k v := by
  induction hle with
  | refl => rfl
  | step _ ih => rw [insert_stable _ ht k v (by rw [ih]; exact h), ih]

theorem insert_agree (fuel fuel' : Nat) (ht : HashTable) (k v : CStr) (r : HashTable)
    (h : hash_table_insert fuel ht k v = .ok r)
    (h' : hash_table_insert fuel' ht k v ≠ .out_of_fuel) :
    hash_table_insert fuel' ht k v = .ok r := by
  have h1 := insert_mono_le fuel (max fuel fuel') (le_max_left _ _) ht k v r h
  have h2 := insert_stable_le fuel' (max fuel fuel') (le_max_right _ _) ht k v h'
  rw [← h2, h1]

theorem run_mono_le (fuel fuel' : Nat) (hle : fuel ≤ fuel') (ops : List Op) :
    ∀ ht r, run fuel ht ops = .ok r → run fuel' ht ops = .ok r := by
  induction ops with
  | nil => intro ht r h; exact h
  | cons op rest ih =>
    intro ht r h
    simp only [run] at h ⊢
    cases hs : step fuel ht op with
    | ok ht1 =>
      rw [hs] at h
      have hs' : step fuel' ht op = .ok ht1 := by
        cases op with
        | insert key value => exact insert_mono_le fuel fuel' hle ht key value ht1 hs
        | remove key => exact hs
      rw [hs']
      exact ih ht1 r h
    | undefined => rw [hs] at h; cases h
    | out_of_fuel => rw [hs] at h; cases h

theorem run_append (fuel : Nat) (ops1 ops2 : List Op) :
    ∀ ht t, run fuel ht ops1 = .ok t → run fuel ht (ops1 ++ ops2) = run fuel t ops2 := by
  induction ops1 with
  | nil =>
    intro ht t h
    simp only [run, Outcome.ok.injEq] at h
    rw [h]; rfl
  | cons op rest ih =>
    intro ht t h
    simp only [List.cons_append, run] at h ⊢
    cases hs : step fuel ht op with
    | ok ht1 =>
      rw [hs] at h
      simp only []
      exact ih ht1 t h
    | undefined => rw [hs] at h; cases h
    | out_of_fuel => rw [hs] at h; cases h

/-! ## Tables reachable through the public interface -/

theorem grown_capacity (ht : HashTable) : (grown ht).capacity = ht.capacity * 2 := by
  show (fill (init_hash_table ht (ht.capacity * 2)) (entries ht)).capacity = _
  rw [fill_capacity]; rfl

theorem shrunk_capacity (ht : HashTable) : (shrunk ht).capacity = ht.capacity / 2 := by
  show (fill (init_hash_table ht (ht.capacity / 2)) _).capacity = _
  rw [fill_capacity]; rfl

theorem tidy_resized (ht : HashTable) (b : Bool) (h : Tidy ht) :
    Tidy { ht with resized := b } := h

theorem grown_tidy (ht : HashTable) (h : WellFormed ht) : Tidy (grown ht) :=
  tidy_resized _ true
    (fill_tidy _ _ (init_tidy ht (ht.capacity * 2) (by have := h.2; omega)))

theorem shrunk_tidy (ht : HashTable) (h : 2 ≤ ht.capacity) : Tidy (shrunk ht) :=
  tidy_resized _ true (fill_tidy _ _ (init_tidy ht (ht.capacity / 2) (by omega)))

theorem grown_table_keys (ht : HashTable) (h : WellFormed ht) :
    table_keys (grown ht) = table_keys ht := by
  show table_keys (fill (init_hash_table ht (ht.capacity * 2)) (entries ht)) = _
  rw [table_keys_fill _ _ (init_wellFormed ht _ (by have := h.2; omega)), init_table_keys,
    Finset.empty_union]
  rfl

theorem shrunk_table_keys (ht : HashTable) (h : 2 ≤ ht.capacity) :
    table_keys (shrunk ht) = pair_keys (ht.storage.take (ht.capacity / 2)).flatten := by
  show table_keys (fill (init_hash_table ht (ht.capacity / 2)) _) = _
  rw [table_keys_fill _ _ (init_wellFormed ht _ (by omega)), init_table_keys,
    Finset.empty_union]

theorem take_keys_subset (ht : HashTable) (m : Nat) :
    pair_keys (ht.storage.take m).flatten ⊆ table_keys ht := by
  intro key hk
  rw [mem_pair_keys] at hk
  obtain ⟨p, hp, hpk⟩ := hk
  rw [List.mem_flatten] at hp
  obtain ⟨chain, hc, hpc⟩ := hp
  rw [table_keys, mem_pair_keys]
  exact ⟨p, List.mem_flatten.mpr ⟨chain, List.mem_of_mem_take hc, hpc⟩, hpk⟩

theorem store_card_le (ht : HashTable) (pair : LinkedPair) (h : WellFormed ht)
    (hb : BucketsOK ht) (hn : (table_keys ht).card ≤ ht.num_used) :
    1 ≤ (table_keys (store ht pair)).card ∧
      (table_keys (store ht pair)).card ≤ (store ht pair).num_used ∧
      (store ht pair).num_used ≤ ht.num_used + 1 := by
  rw [store_num_used ht pair h hb, table_keys_store ht pair h]
  have hpos : 1 ≤ (insert pair.key (table_keys ht)).card :=
    Finset.card_pos.mpr ⟨pair.key, Finset.mem_insert_self _ _⟩
  by_cases hk : pair.key ∈ table_keys ht
  · rw [Finset.insert_eq_of_mem hk] at hpos ⊢
    simp only [hk, if_true]
    omega
  · rw [Finset.card_insert_of_not_mem hk]
    simp only [hk, if_false]
    omega

theorem chain_remove_some (key : CStr) :
    ∀ (chain chain' : List LinkedPair), chain_remove key chain = some chain' →
      ∀ q ∈ chain', q ∈ chain := by
  intro chain
  induction chain with
  | nil => intro chain' h; simp [chain_remove] at h
  | cons curr next ih =>
    intro chain' h q hq
    by_cases hk : curr.key = key
    · simp only [chain_remove, hk, if_true, Option.some.injEq] at h
      subst h
      exact List.mem_cons_of_mem _ hq
    · simp only [chain_remove, hk, if_false, Option.map_eq_some'] at h
      obtain ⟨rest', hrest, rfl⟩ := h
      rcases List.mem_cons.mp hq with rfl | hq'
      · exact List.mem_cons_self _ _
      · exact List.mem_cons_of_mem _ (ih rest' hrest q hq')

theorem remove_eq (ht : HashTable) (key : CStr) (h : WellFormed ht) :
    hash_table_remove ht key = .ok (removed ht key) := by
  have hne : ht.capacity ≠ 0 := by have := h.2; omega
  have hb := bucket_eq ht key h
  simp only [hash_table_remove, hne, if_false, removed]
  rw [hb]
  cases hr : chain_remove key (bucket ht key) <;> simp [hr]

theorem removed_capacity (ht : HashTable) (key : CStr) :
    (removed ht key).capacity = ht.capacity := by
  unfold removed
  cases chain_remove key (bucket ht key) <;> rfl

theorem removed_num_used (ht : HashTable) (key : CStr) :
    (removed ht key).num_used = ht.num_used := by
  unfold removed
  cases chain_remove key (bucket ht key) <;> rfl

theorem removed_resized (ht : HashTable) (key : CStr) :
    (removed ht key).resized = ht.resized := by
  unfold removed
  cases chain_remove key (bucket ht key) <;> rfl

theorem removed_length (ht : HashTable) (key : CStr) :
    (removed ht key).storage.length = ht.storage.length := by
  unfold removed
  cases chain_remove key (bucket ht key) <;> simp

/-- Every chain of the table after a remove is part of the chain that was at
the same index before. -/
theorem removed_storage (ht : HashTable) (key : CStr) (h : WellFormed ht) (j : Nat)
    (chain' : List LinkedPair) (hj : (removed ht key).storage[j]? = some chain') :
    ∃ chain, ht.storage[j]? = some chain ∧ ∀ q ∈ chain', q ∈ chain := by
  unfold removed at hj
  cases hr : chain_remove key (bucket ht key) with
  | none =>
    rw [hr] at hj
    exact ⟨chain', hj, fun q hq => hq⟩
  | some c' =>
    rw [hr] at hj
    simp only at hj
    by_cases hji : hash key ht.capacity = j
    · subst hji
      rw [List.getElem?_set_self (index_lt ht key h), Option.some.injEq] at hj
      subst hj
      exact ⟨bucket ht key, bucket_eq ht key h, chain_remove_some key _ _ hr⟩
    · rw [List.getElem?_set_ne hji] at hj
      exact ⟨chain', hj, fun q hq => hq⟩

theorem removed_table_keys (ht : HashTable) (key : CStr) (h : WellFormed ht) :
    table_keys (removed ht key) ⊆ table_keys ht := by
  intro k hk
  rw [mem_table_keys] at hk ⊢
  obtain ⟨j, chain', hj, hkc⟩ := hk
  obtain ⟨chain, hc, hsub⟩ := removed_storage ht key h j chain' hj
  refine ⟨j, chain, hc, ?_⟩
  rw [mem_pair_keys] at hkc ⊢
  obtain ⟨p, hp, hpk⟩ := hkc
  exact ⟨p, hsub p hp, hpk⟩

theorem store_num_used_le (ht : HashTable) (pair : LinkedPair) (h : WellFormed ht)
    (hb : BucketsOK ht) (hmax : ht.num_used ≤ INT_MAX)
    (hn : pair.key ∉ pair_keys (bucket ht pair.key) → ht.num_used < INT_MAX) :
    (store ht pair).num_used ≤ INT_MAX := by
  rw [store_num_used ht pair h hb]
  by_cases hk : pair.key ∈ table_keys ht
  · simp only [hk, if_true]; exact hmax
  · simp only [hk, if_false]
    have := hn (fun hmem => hk ((mem_table_keys_bucket ht pair.key h hb).mpr hmem))
    omega

/-- On a sound table `hash_table_insert` with fuel 2 either returns a sound
table, the stored table or that table grown or shrunk once without any nested
rebuild, or it stops at a signed overflow; the overflow needs a capacity whose
double exceeds `INT_MAX`. -/
theorem insert_sound (ht : HashTable) (key value : CStr) (h : Sound ht) :
    (∃ ht', hash_table_insert 2 ht key value = .ok ht' ∧ InsertResult ht key value ht') ∨
      (hash_table_insert 2 ht key value = .undefined ∧ INT_MAX < ht.capacity * 2) := by
  obtain ⟨hw, hb, hn, hl, hmax⟩ := h
  have him := int_max_eq
  by_cases hov : key ∉ pair_keys (bucket ht key) ∧ INT_MAX ≤ ht.num_used
  · right
    refine ⟨insert_of_store_undefined 1 ht key value
      (insert_store_overflow ht key value hw hov.1 hov.2), ?_⟩
    have := hov.2
    omega
  have hn' : key ∉ pair_keys (bucket ht key) → ht.num_used < INT_MAX := by
    intro hnew
    by_contra hge
    exact hov ⟨hnew, by omega⟩
  have hstore := insert_store_eq ht key value hw hn'
  have hw1 := store_wellFormed ht (create_pair key value) hw
  have hb1 := store_bucketsOK ht (create_pair key value) hw hb
  obtain ⟨hc1, hc2, hc3⟩ := store_card_le ht (create_pair key value) hw hb hn
  have hmax1 := store_num_used_le ht (create_pair key value) hw hb hmax hn'
  have hcap1 := store_capacity ht (create_pair key value)
  have hpos := hw.2
  rw [insert_succ 1 ht key value hw hn']
  unfold InsertResult
  generalize store ht (create_pair key value) = ht1 at *
  have h0 : 0 < ht1.capacity := by omega
  by_cases hgrow : 7 * ht1.capacity < 10 * ht1.num_used
  · by_cases hcap2 : ht1.capacity * 2 ≤ INT_MAX
    · have hcard : 10 * (table_keys ht1).card ≤ 14 * ht1.capacity := by
        rcases Nat.lt_or_ge ht1.capacity 2 with hsmall | hbig
        · have hone : ht1.capacity = 1 := by omega
          have hzero : ht.num_used = 0 := by omega
          omega
        · omega
      left
      refine ⟨grown ht1, ?_, hstore, ?_, ?_, Or.inr (Or.inl ?_)⟩
      · simp only [load_check, h0, hgrow, if_true]
        exact resize_plain _ (plain_insert 0) ht1 hw1 hcard hcap2
      · simp only [load_check, h0, hgrow, if_true]
        exact resize_plain _ plain_no_rebuild ht1 hw1 hcard hcap2
      · obtain ⟨gw, gb, gn⟩ := grown_tidy ht1 hw1
        have hk := grown_table_keys ht1 hw1
        refine ⟨gw, gb, le_of_eq gn.symm, ?_, ?_⟩
        · rw [gn, hk, grown_capacity]; omega
        · rw [gn, hk]; omega
      · rw [grown_capacity]; omega
    · right
      refine ⟨?_, by omega⟩
      simp only [load_check, h0, hgrow, if_true]
      exact resize_overflow _ ht1 (by omega)
  · left
    by_cases hshrink : ht1.resized = true ∧ 5 * ht1.num_used < ht1.capacity
    · have h2 : 2 ≤ ht1.capacity := by omega
      have hsub := Finset.card_le_card (take_keys_subset ht1 (ht1.capacity / 2))
      have hcard : 10 * (pair_keys (ht1.storage.take (ht1.capacity / 2)).flatten).card
          ≤ 7 * (ht1.capacity / 2) := by omega
      have hcmax : (pair_keys (ht1.storage.take (ht1.capacity / 2)).flatten).card
          ≤ INT_MAX := by omega
      refine ⟨shrunk ht1, ?_, hstore, ?_, ?_, Or.inr (Or.inr ?_)⟩
      · simp only [load_check, h0, hgrow, hshrink, and_self, if_true, if_false]
        exact shrink_plain _ (plain_insert 0) ht1 hw1 h2 hcard hcmax
      · simp only [load_check, h0, hgrow, hshrink, and_self, if_true, if_false]
        exact shrink_plain _ plain_no_rebuild ht1 hw1 h2 hcard hcmax
      · obtain ⟨gw, gb, gn⟩ := shrunk_tidy ht1 h2
        have hk := shrunk_table_keys ht1 h2
        refine ⟨gw, gb, le_of_eq gn.symm, ?_, ?_⟩
        · rw [gn, hk, shrunk_capacity]; exact hcard
        · rw [gn, hk]; exact hcmax
      · rw [shrunk_capacity, hcap1]
    · refine ⟨ht1, ?_, hstore, ?_, ⟨hw1, hb1, hc2, by omega, hmax1⟩, Or.inl hcap1⟩
      · simp [load_check, h0, hgrow, hshrink]
      · simp [load_check, h0, hgrow, hshrink]

theorem insert_sound_ok (ht : HashTable) (key value : CStr) (h : Sound ht)
    (hcap : ht.capacity * 2 ≤ INT_MAX) :
    ∃ ht', hash_table_insert 2 ht key value = .ok ht' ∧ InsertResult ht key value ht' := by
  rcases insert_sound ht key value h with hok | ⟨_, hov⟩
  · exact hok
  · omega

theorem insert_sound_of_ok (ht : HashTable) (key value : CStr) (fuel : Nat) (ht' : HashTable)
    (h : Sound ht) (hins : hash_table_insert fuel ht key value = .ok ht') :
    hash_table_insert 2 ht key value = .ok ht' ∧ InsertResult ht key value ht' := by
  rcases insert_sound ht key value h with ⟨r, h2, hr⟩ | ⟨hund, _⟩
  · rw [insert_deterministic fuel 2 ht key value ht' r hins h2]
    exact ⟨h2, hr⟩
  · have := insert_agree fuel 2 ht key value ht' hins (by rw [hund]; simp)
    rw [hund] at this
    cases this

theorem removed_sound (ht : HashTable) (key : CStr) (h : Sound ht) :
    Sound (removed ht key) := by
  obtain ⟨hw, hb, hn, hl, hmax⟩ := h
  refine ⟨⟨?_, ?_⟩, ?_, ?_, ?_, ?_⟩
  · rw [removed_length, removed_capacity]; exact hw.1
  · rw [removed_capacity]; exact hw.2
  · intro j chain' hj q hq
    obtain ⟨chain, hc, hsub⟩ := removed_storage ht key hw j chain' hj
    rw [removed_capacity]
    exact hb j chain hc q (hsub q hq)
  · rw [removed_num_used]
    exact le_trans (Finset.card_le_card (removed_table_keys ht key hw)) hn
  · rw [removed_num_used, removed_capacity]; exact hl
  · rw [removed_num_used]; exact hmax

theorem create_sound (c : Nat) (hc : 1 ≤ c) : Sound (create_hash_table c) := by
  obtain ⟨hw, hb, hn⟩ := init_tidy
    { capacity := 0, resized := false, num_used := 0, storage := [] } c hc
  refine ⟨hw, hb, le_of_eq hn.symm, ?_, ?_⟩
  · show 10 * 0 ≤ 7 * c
    omega
  · show 0 ≤ INT_MAX
    omega

theorem run_sound (fuel : Nat) (ops : List Op) :
    ∀ ht0 ht : HashTable, Sound ht0 → run fuel ht0 ops = .ok ht → Sound ht := by
  induction ops with
  | nil =>
    intro ht0 ht h hrun
    simp only [run, Outcome.ok.injEq] at hrun
    rw [← hrun]; exact h
  | cons op rest ih =>
    intro ht0 ht h hrun
    simp only [run] at hrun
    cases hs : step fuel ht0 op with
    | ok ht1 =>
      rw [hs] at hrun
      refine ih ht1 ht ?_ hrun
      cases op with
      | insert key value =>
        exact (insert_sound_of_ok ht0 key value fuel ht1 h hs).2.2.2.1
      | remove key =>
        simp only [step, remove_eq ht0 key h.1, Outcome.ok.injEq] at hs
        rw [← hs]; exact removed_sound ht0 key h
    | undefined => rw [hs] at hrun; cases hrun
    | out_of_fuel => rw [hs] at hrun; cases hrun

theorem reachable_sound (ht : HashTable) (h : Reachable ht) : Sound ht := by
  obtain ⟨c, ops, fuel, hc, hrun⟩ := h
  exact run_sound fuel ops _ ht (create_sound c hc) hrun

/-- C6: on every table reachable from `create_hash_table(c)`, `c >= 1`, by
inserts and removes, every table a `hash_table_insert` call returns, whatever
rebuild it went through, has `10 * num_used <= 7 * capacity`, that is a load of
at most 0.7; and the call does return (fuel 2 is enough) whenever the capacity
is below `2 ^ 30`, so that its double fits in `int`. -/
theorem load_invariant (ht : HashTable) (key value : CStr) (h : Reachable ht) :
    (ht.capacity < 2 ^ 30 → ∃ ht', hash_table_insert 2 ht key value = .ok ht') ∧
      ∀ fuel ht', hash_table_insert fuel ht key value = .ok ht' →
        10 * ht'.num_used ≤ 7 * ht'.capacity := by
  have hs := reachable_sound ht h
  refine ⟨fun hcap => ?_, fun fuel ht' hins => ?_⟩
  · have him := int_max_eq
    obtain ⟨ht', hins, _⟩ := insert_sound_ok ht key value hs (by omega)
    exact ⟨ht', hins⟩
  · exact (insert_sound_of_ok ht key value fuel ht' hs hins).2.2.2.1.2.2.2.1

theorem load_invariant_witness :
    Reachable
        { capacity := 4, resized := true, num_used := 2,
          storage := [[], [{ key := line_1, value := text_1 }],
                      [{ key := line_2, value := text_2 }], []] } ∧
      (((4 : Nat) < 2 ^ 30 → ∃ ht', hash_table_insert 2
          { capacity := 4, resized := true, num_used := 2,
            storage := [[], [{ key := line_1, value := text_1 }],
                        [{ key := line_2, value := text_2 }], []] }
          line_3 text_3 = .ok ht') ∧
        ∀ fuel ht', hash_table_insert fuel
            { capacity := 4, resized := true, num_used := 2,
              storage := [[], [{ key := line_1, value := text_1 }],
                          [{ key := line_2, value := text_2 }], []] }
            line_3 text_3 = .ok ht' →
          10 * ht'.num_used ≤ 7 * ht'.capacity) :=
  have hreach : Reachable
      { capacity := 4, resized := true, num_used := 2,
        storage := [[], [{ key := line_1, value := text_1 }],
                    [{ key := line_2, value := text_2 }], []] } :=
    ⟨2, [.insert line_1 text_1, .insert line_2 text_2], 2, by decide, by decide⟩
  ⟨hreach, load_invariant _ line_3 text_3 hreach⟩

/-! ## Invariants of reachable tables -/

/-- C13: in every table reachable from `create_hash_table(c)`, `c >= 1`, by
inserts and removes (with every grow or shrink they trigger), every node
stored in the chain at index `i` has `hash key capacity = i` for the current
capacity. -/
theorem bucket_index_invariant (ht : HashTable) (h : Reachable ht) :
    ∀ (i : Nat) (chain : List LinkedPair), ht.storage[i]? = some chain →
      ∀ p ∈ chain, hash p.key ht.capacity = i :=
  (reachable_sound ht h).2.1

theorem bucket_index_invariant_witness :
    Reachable
        { capacity := 8, resized := true, num_used := 3,
          storage := [[], [], [], [], [],
                      [{ key := line_1, value := text_1 }],
                      [{ key := line_2, value := text_2 }],
                      [{ key := line_3, value := text_3 }]] } ∧
      ∀ (i : Nat) (chain : List LinkedPair),
        (HashTable.storage
            { capacity := 8, resized := true, num_used := 3,
              storage := [[], [], [], [], [],
                          [{ key := line_1, value := text_1 }],
                          [{ key := line_2, value := text_2 }],
                          [{ key := line_3, value := text_3 }]] })[i]? = some chain →
        ∀ p ∈ chain, hash p.key 8 = i :=
  have hreach : Reachable
      { capacity := 8, resized := true, num_used := 3,
        storage := [[], [], [], [], [],
                    [{ key := line_1, value := text_1 }],
                    [{ key := line_2, value := text_2 }],
                    [{ key := line_3, value := text_3 }]] } :=
    ⟨2, demo_ops, 2, by decide, by decide⟩
  ⟨hreach, bucket_index_invariant _ hreach⟩

/-- C15: every table reachable from `create_hash_table(c)`, `c >= 1`, by
inserts and removes has `capacity > 0`, and so has every table a further
`hash_table_insert` (whatever it rebuilds) or `hash_table_remove` returns: no
shrink halves the capacity down to 0 and the modulus given to `hash` is never
zero.  The remove always returns, and the insert does whenever the capacity is
below `2 ^ 30`, so that its double fits in `int`. -/
theorem capacity_positive (ht : HashTable) (h : Reachable ht) :
    0 < ht.capacity ∧
      (∀ key value fuel ht', hash_table_insert fuel ht key value = .ok ht' →
        0 < ht'.capacity) ∧
      (ht.capacity < 2 ^ 30 →
        ∀ key value, ∃ ht', hash_table_insert 2 ht key value = .ok ht' ∧ 0 < ht'.capacity) ∧
      ∀ key, ∃ ht', hash_table_remove ht key = .ok ht' ∧ 0 < ht'.capacity := by
  have hs := reachable_sound ht h
  refine ⟨hs.1.2, fun key value fuel ht' hins => ?_, fun hcap key value => ?_, fun key => ?_⟩
  · exact (insert_sound_of_ok ht key value fuel ht' hs hins).2.2.2.1.1.2
  · have him := int_max_eq
    obtain ⟨ht', hins, hres⟩ := insert_sound_ok ht key value hs (by omega)
    exact ⟨ht', hins, hres.2.2.1.1.2⟩
  · exact ⟨removed ht key, remove_eq ht key hs.1, (removed_sound ht key hs).1.2⟩

theorem capacity_positive_witness :
    Reachable
        { capacity := 6, resized := true, num_used := 1,
          storage := [[], [], [], [{ key := line_3, value := text_1 }], [], []] } ∧
      (0 < 6 ∧
        (∀ key value fuel ht', hash_table_insert fuel
            { capacity := 6, resized := true, num_used := 1,
              storage := [[], [], [], [{ key := line_3, value := text_1 }], [], []] }
            key value = .ok ht' → 0 < ht'.capacity) ∧
        ((6 : Nat) < 2 ^ 30 →
          ∀ key value, ∃ ht', hash_table_insert 2
            { capacity := 6, resized := true, num_used := 1,
              storage := [[], [], [], [{ key := line_3, value := text_1 }], [], []] }
            key value = .ok ht' ∧ 0 < ht'.capacity) ∧
        ∀ key, ∃ ht', hash_table_remove
            { capacity := 6, resized := true, num_used := 1,
              storage := [[], [], [], [{ key := line_3, value := text_1 }], [], []] }
            key = .ok ht' ∧ 0 < ht'.capacity) :=
  have hreach : Reachable
      { capacity := 6, resized := true, num_used := 1,
        storage := [[], [], [], [{ key := line_3, value := text_1 }], [], []] } :=
    ⟨3, [.insert line_1 text_1, .insert line_2 text_2, .remove line_1, .remove line_2,
         .insert line_3 text_1], 2, by decide, by decide⟩
  ⟨hreach, capacity_positive _ hreach⟩
/-! ## A fresh table -/

theorem init_bucket (ht : HashTable) (c : Nat) (key : CStr) :
    bucket (init_hash_table ht c) key = [] := by
  unfold bucket
  cases hb : (init_hash_table ht c).storage[hash key (init_hash_table ht c).capacity]? with
  | none => rfl
  | some chain => rw [init_storage ht c _ chain hb]; rfl

/-- C16: for every capacity `c >= 1`, `create_hash_table(c)` yields a table
with capacity `c`, a storage of `c` chains that are all empty, `num_used = 0`
and `resized = false`, on which `hash_table_retrieve` returns `NULL` for every
key. -/
theorem create_empty (c : Nat) (hc : 1 ≤ c) :
    (create_hash_table c).capacity = c ∧
      (create_hash_table c).storage.length = c ∧
      (∀ chain ∈ (create_hash_table c).storage, chain = []) ∧
      (create_hash_table c).num_used = 0 ∧
      (create_hash_table c).resized = false ∧
      ∀ key, hash_table_retrieve (create_hash_table c) key = .ok none := by
  refine ⟨rfl, ?_, ?_, rfl, rfl, ?_⟩
  · simp [create_hash_table, init_hash_table]
  · intro chain hchain
    simp only [create_hash_table, init_hash_table] at hchain
    exact List.eq_of_mem_replicate hchain
  · intro key
    have hw : WellFormed (create_hash_table c) := init_wellFormed _ c hc
    rw [retrieve_eq _ key hw]
    show Outcome.ok (chain_retrieve key (bucket (init_hash_table _ c) key)) = _
    rw [init_bucket]
    rfl

theorem create_empty_witness :
    (create_hash_table 2).capacity = 2 ∧
      (create_hash_table 2).storage.length = 2 ∧
      (∀ chain ∈ (create_hash_table 2).storage, chain = []) ∧
      (create_hash_table 2).num_used = 0 ∧
      (create_hash_table 2).resized = false ∧
      ∀ key, hash_table_retrieve (create_hash_table 2) key = .ok none :=
  create_empty 2 (by decide)

/-! ## What a remove leaves alone -/

theorem chain_remove_retrieve (key key' : CStr) (hne : key' ≠ key) :
    ∀ (chain chain' : List LinkedPair), chain_remove key chain = some chain' →
      chain_retrieve key' chain' = chain_retrieve key' chain := by
  intro chain
  induction chain with
  | nil => intro chain' h; simp [chain_remove] at h
  | cons curr next ih =>
    intro chain' h
    by_cases hk : curr.key = key
    · simp only [chain_remove, hk, if_true, Option.some.injEq] at h
      subst h
      have hck : ¬ curr.key = key' := fun e => hne (e.symm.trans hk)
      simp [chain_retrieve, hck]
    · simp only [chain_remove, hk, if_false, Option.map_eq_some'] at h
      obtain ⟨rest', hrest, rfl⟩ := h
      simp only [chain_retrieve, ih rest' hrest]

theorem removed_storage_other (ht : HashTable) (key : CStr) (j : Nat)
    (hj : j ≠ hash key ht.capacity) :
    (removed ht key).storage[j]? = ht.storage[j]? := by
  unfold removed
  cases chain_remove key (bucket ht key) with
  | none => rfl
  | some chain' =>
    show (ht.storage.set (hash key ht.capacity) chain')[j]? = _
    exact List.getElem?_set_ne (fun e => hj e.symm)

theorem removed_lookup_other (ht : HashTable) (key key' : CStr) (h : WellFormed ht)
    (hne : key' ≠ key) : lookup (removed ht key) key' = lookup ht key' := by
  unfold lookup
  by_cases hidx : hash key' ht.capacity = hash key ht.capacity
  · cases hr : chain_remove key (bucket ht key) with
    | none =>
      have : removed ht key = ht := by unfold removed; rw [hr]
      rw [this]
    | some chain' =>
      have hbk : bucket (removed ht key) key' = chain' := by
        unfold bucket removed
        rw [hr]
        show ((ht.storage.set (hash key ht.capacity) chain')[hash key' ht.capacity]?).getD [] = _
        rw [hidx, List.getElem?_set_self (index_lt ht key h)]
        rfl
      have hbk' : bucket ht key' = bucket ht key := by
        unfold bucket
        rw [hidx]
      rw [hbk, hbk']
      exact chain_remove_retrieve key key' hne _ _ hr
  · have hbk : bucket (removed ht key) key' = bucket ht key' := by
      unfold bucket
      rw [removed_capacity, removed_storage_other ht key _ hidx]
    rw [hbk]

/-- C18: on every table with `capacity >= 1` (whose storage has `capacity`
chains) and for every key, `hash_table_remove` returns a table with the same
capacity, resized flag and num_used (no load-factor check, no rebuild); every
chain at an index other than `hash key capacity` is unchanged, and
`hash_table_retrieve` returns the same result as before for every other key. -/
theorem remove_frame (ht : HashTable) (key : CStr)
    (hcap : 1 ≤ ht.capacity) (hlen : ht.storage.length = ht.capacity) :
    ∃ ht', hash_table_remove ht key = .ok ht' ∧
      ht'.capacity = ht.capacity ∧ ht'.resized = ht.resized ∧
      ht'.num_used = ht.num_used ∧
      (∀ j, j ≠ hash key ht.capacity → ht'.storage[j]? = ht.storage[j]?) ∧
      ∀ key', key' ≠ key → hash_table_retrieve ht' key' = hash_table_retrieve ht key' := by
  have hw : WellFormed ht := ⟨hlen, hcap⟩
  have hw' : WellFormed (removed ht key) := by
    refine ⟨?_, ?_⟩
    · rw [removed_length, removed_capacity]; exact hlen
    · rw [removed_capacity]; exact hcap
  refine ⟨removed ht key, remove_eq ht key hw, removed_capacity ht key,
    removed_resized ht key, removed_num_used ht key,
    fun j hj => removed_storage_other ht key j hj, fun key' hne => ?_⟩
  rw [retrieve_eq _ key' hw', retrieve_eq ht key' hw, removed_lookup_other ht key key' hw hne]

theorem remove_frame_witness :
    ∃ ht', hash_table_remove
        { capacity := 4, resized := true, num_used := 2,
          storage := [[], [{ key := line_1, value := text_1 }],
                      [{ key := line_2, value := text_2 }], []] } line_1 = .ok ht' ∧
      ht'.capacity = 4 ∧ ht'.resized = true ∧ ht'.num_used = 2 ∧
      (∀ j, j ≠ hash line_1 4 →
        ht'.storage[j]? =
          (HashTable.storage
            { capacity := 4, resized := true, num_used := 2,
              storage := [[], [{ key := line_1, value := text_1 }],
                          [{ key := line_2, value := text_2 }], []] })[j]?) ∧
      ∀ key', key' ≠ line_1 →
        hash_table_retrieve ht' key' =
          hash_table_retrieve
            { capacity := 4, resized := true, num_used := 2,
              storage := [[], [{ key := line_1, value := text_1 }],
                          [{ key := line_2, value := text_2 }], []] } key' :=
  remove_frame
    { capacity := 4, resized := true, num_used := 2,
      storage := [[], [{ key := line_1, value := text_1 }],
                  [{ key := line_2, value := text_2 }], []] }
    line_1 (by decide) (by decide)

/-! ## The demonstration of `main` and two more concrete runs -/

/-- C11 as stated fails: no run of the three inserts of `main` from
`create_hash_table(2)` ends with capacity 4. -/
theorem demo_capacity_is_not_four :
    ¬ ∃ fuel ht, run fuel (create_hash_table 2) demo_ops = .ok ht ∧ ht.capacity = 4 := by
  rintro ⟨fuel, ht, hrun, hcap⟩
  have h8 : run 2 (create_hash_table 2) demo_ops =
      .ok { capacity := 8, resized := true, num_used := 3,
            storage := [[], [], [], [], [],
                        [{ key := line_1, value := text_1 }],
                        [{ key := line_2, value := text_2 }],
                        [{ key := line_3, value := text_3 }]] } := by decide
  have h1 := run_mono_le fuel (max fuel 2) (le_max_left _ _) demo_ops _ _ hrun
  have h2 := run_mono_le 2 (max fuel 2) (le_max_right _ _) demo_ops _ _ h8
  rw [h1, Outcome.ok.injEq] at h2
  rw [h2] at hcap
  exact absurd hcap (by decide)

/-- C11, amended: from `create_hash_table(2)` the second insert of `main`
(load 2/2) grows the table to capacity 4 and the third (load 3/4) grows it to
capacity 8; after the third insert `capacity = 8`, `num_used = 3` and the
three keys retrieve their original values. -/
theorem demo_scenario :
    run 2 (create_hash_table 2) [.insert line_1 text_1] =
        .ok { capacity := 2, resized := false, num_used := 1,
              storage := [[], [{ key := line_1, value := text_1 }]] } ∧
      run 2 (create_hash_table 2) [.insert line_1 text_1, .insert line_2 text_2] =
        .ok { capacity := 4, resized := true, num_used := 2,
              storage := [[], [{ key := line_1, value := text_1 }],
                          [{ key := line_2, value := text_2 }], []] } ∧
      run 2 (create_hash_table 2) demo_ops =
        .ok { capacity := 8, resized := true, num_used := 3,
              storage := [[], [], [], [], [],
                          [{ key := line_1, value := text_1 }],
                          [{ key := line_2, value := text_2 }],
                          [{ key := line_3, value := text_3 }]] } ∧
      hash_table_retrieve
          { capacity := 8, resized := true, num_used := 3,
            storage := [[], [], [], [], [],
                        [{ key := line_1, value := text_1 }],
                        [{ key := line_2, value := text_2 }],
                        [{ key := line_3, value := text_3 }]] } line_1 = .ok (some text_1) ∧
      hash_table_retrieve
          { capacity := 8, resized := true, num_used := 3,
            storage := [[], [], [], [], [],
                        [{ key := line_1, value := text_1 }],
                        [{ key := line_2, value := text_2 }],
                        [{ key := line_3, value := text_3 }]] } line_2 = .ok (some text_2) ∧
      hash_table_retrieve
          { capacity := 8, resized := true, num_used := 3,
            storage := [[], [], [], [], [],
                        [{ key := line_1, value := text_1 }],
                        [{ key := line_2, value := text_2 }],
                        [{ key := line_3, value := text_3 }]] } line_3 = .ok (some text_3) := by
  decide

/-- C12: after `create_hash_table(4)`, one insert of `"line_1"` and its
removal, the table is reachable, no chain holds a node, and `num_used` is 1. -/
theorem count_after_remove :
    run 1 (create_hash_table 4) [.insert line_1 text_1, .remove line_1] =
        .ok { capacity := 4, resized := false, num_used := 1,
              storage := [[], [], [], []] } ∧
      (entries { capacity := 4, resized := false, num_used := 1,
                 storage := [[], [], [], []] }).length = 0 ∧
      HashTable.num_used { capacity := 4, resized := false, num_used := 1,
                           storage := [[], [], [], []] } = 1 := by
  decide

/-- C14: after `create_hash_table(4)` and two inserts of `"line_1"`, the chain
of bucket `hash "line_1" 4 = 1` holds two nodes with the key `"line_1"`: the
second insert did not replace the node of the first, and the chain went from
one node to two. -/
theorem head_match_duplicates :
    hash line_1 4 = 1 ∧
      run 1 (create_hash_table 4) [.insert line_1 text_1] =
        .ok { capacity := 4, resized := false, num_used := 1,
              storage := [[], [{ key := line_1, value := text_1 }], [], []] } ∧
      hash_table_insert 1
          { capacity := 4, resized := false, num_used := 1,
            storage := [[], [{ key := line_1, value := text_1 }], [], []] }
          line_1 text_2 =
        .ok { capacity := 4, resized := false, num_used := 1,
              storage := [[], [{ key := line_1, value := text_2 },
                               { key := line_1, value := text_1 }], [], []] } := by
  decide


/-! ## No nested rebuild -/

/-- C17, amended: on every table with capacity `c < 2 ^ 30` (so that `2 * c`
fits in `int`) reachable from `create_hash_table(c0)`, `c0 >= 1`, by inserts
and removes, a `hash_table_insert` call returns (for every fuel from 2 on) the
table that the load check yields when the re-inserts made by
`hash_table_resize` or `hash_table_shrink` are not allowed to rebuild: no
re-insert triggers a further grow or shrink, and the capacity after the call
is `c`, `2 * c` or `c / 2`. -/
theorem no_nested_rebuild (ht : HashTable) (key value : CStr) (h : Reachable ht)
    (hcap : ht.capacity < 2 ^ 30) :
    ∃ ht1 ht', insert_store ht key value = .ok ht1 ∧
      load_check insert_no_rebuild ht1 = .ok ht' ∧
      (∀ fuel, 2 ≤ fuel → hash_table_insert fuel ht key value = .ok ht') ∧
      (ht'.capacity = ht.capacity ∨ ht'.capacity = 2 * ht.capacity ∨
        ht'.capacity = ht.capacity / 2) := by
  have hs := reachable_sound ht h
  have him := int_max_eq
  obtain ⟨ht', hins, hstore, hplain, _, hshape⟩ := insert_sound_ok ht key value hs (by omega)
  exact ⟨store ht (create_pair key value), ht', hstore, hplain,
    fun fuel hfuel => insert_mono_le 2 fuel hfuel ht key value ht' hins, hshape⟩

theorem no_nested_rebuild_witness :
    Reachable
        { capacity := 4, resized := true, num_used := 2,
          storage := [[], [{ key := line_1, value := text_1 }],
                      [{ key := line_2, value := text_2 }], []] } ∧
      ∃ ht1 ht', insert_store
          { capacity := 4, resized := true, num_used := 2,
            storage := [[], [{ key := line_1, value := text_1 }],
                        [{ key := line_2, value := text_2 }], []] }
          line_3 text_3 = .ok ht1 ∧
        load_check insert_no_rebuild ht1 = .ok ht' ∧
        (∀ fuel, 2 ≤ fuel → hash_table_insert fuel
            { capacity := 4, resized := true, num_used := 2,
              storage := [[], [{ key := line_1, value := text_1 }],
                          [{ key := line_2, value := text_2 }], []] }
            line_3 text_3 = .ok ht') ∧
        (ht'.capacity = 4 ∨ ht'.capacity = 2 * 4 ∨ ht'.capacity = 4 / 2) :=
  have hreach : Reachable
      { capacity := 4, resized := true, num_used := 2,
        storage := [[], [{ key := line_1, value := text_1 }],
                    [{ key := line_2, value := text_2 }], []] } :=
    ⟨2, [.insert line_1 text_1, .insert line_2 text_2], 2, by decide, by decide⟩
  ⟨hreach, no_nested_rebuild _ line_3 text_3 hreach (by decide)⟩

/-! ## Inserts of different keys -/

theorem chain_retrieve_some (key value : CStr) :
    ∀ chain : List LinkedPair, chain_retrieve key chain = some value →
      ∃ p ∈ chain, p.key = key ∧ p.value = value := by
  intro chain
  induction chain with
  | nil => intro h; simp [chain_retrieve] at h
  | cons curr next ih =>
    intro h
    by_cases hk : curr.key = key
    · simp only [chain_retrieve, hk, if_true, Option.some.injEq] at h
      exact ⟨curr, List.mem_cons_self _ _, hk, h⟩
    · simp only [chain_retrieve, hk, if_false] at h
      obtain ⟨p, hp, hpk, hpv⟩ := ih h
      exact ⟨p, List.mem_cons_of_mem _ hp, hpk, hpv⟩

theorem lookup_some (ht : HashTable) (key value : CStr) (h : WellFormed ht)
    (hl : lookup ht key = some value) :
    ∃ p ∈ entries ht, p.key = key ∧ p.value = value := by
  obtain ⟨p, hp, hpk, hpv⟩ := chain_retrieve_some key value _ hl
  exact ⟨p, (mem_entries ht p).mpr ⟨_, _, bucket_eq ht key h, hp⟩, hpk, hpv⟩

theorem fill_wellFormed (pairs : List LinkedPair) :
    ∀ ht : HashTable, WellFormed ht → WellFormed (fill ht pairs) := by
  induction pairs with
  | nil => intro ht h; exact h
  | cons p rest ih => intro ht h; rw [fill_cons]; exact ih _ (store_wellFormed ht p h)

theorem fill_lookup_absent (key : CStr) (pairs : List LinkedPair) :
    ∀ ht : HashTable, WellFormed ht → (∀ p ∈ pairs, p.key ≠ key) →
      lookup (fill ht pairs) key = lookup ht key := by
  induction pairs with
  | nil => intro ht _ _; rfl
  | cons p rest ih =>
    intro ht h habs
    rw [fill_cons, ih _ (store_wellFormed ht p h)
      (fun q hq => habs q (List.mem_cons_of_mem _ hq)), lookup_store ht p key h]
    have hne : ¬ key = p.key := fun e => habs p (List.mem_cons_self _ _) e.symm
    simp [hne]

theorem fill_lookup_mem (pairs : List LinkedPair) :
    ∀ ht : HashTable, WellFormed ht → KeyFunctional pairs →
      ∀ p ∈ pairs, lookup (fill ht pairs) p.key = some p.value := by
  induction pairs with
  | nil => intro ht _ _ p hp; exact absurd hp (List.not_mem_nil _)
  | cons q rest ih =>
    intro ht h hkf p hp
    have hkf' : KeyFunctional rest := fun a ha b hb hab =>
      hkf a (List.mem_cons_of_mem _ ha) b (List.mem_cons_of_mem _ hb) hab
    rw [fill_cons]
    by_cases hex : ∃ r ∈ rest, r.key = p.key
    · obtain ⟨r, hr, hrk⟩ := hex
      have hrp : r = p := hkf r (List.mem_cons_of_mem _ hr) p hp hrk
      rw [← hrp]
      exact ih _ (store_wellFormed ht q h) hkf' r hr
    · have hpq : p = q := by
        rcases List.mem_cons.mp hp with hpq | hp'
        · exact hpq
        · exact absurd ⟨p, hp', rfl⟩ hex
      rw [fill_lookup_absent p.key rest _ (store_wellFormed ht q h)
        (fun r hr hrk => hex ⟨r, hr, hrk⟩), lookup_store ht q p.key h, hpq]
      simp

theorem grown_lookup (ht : HashTable) (key value : CStr) (h : WellFormed ht)
    (hkf : KeyFunctional (entries ht)) (hl : lookup ht key = some value) :
    lookup (grown ht) key = some value := by
  obtain ⟨p, hp, hpk, hpv⟩ := lookup_some ht key value h hl
  have := fill_lookup_mem (entries ht) (init_hash_table ht (ht.capacity * 2))
    (init_wellFormed ht _ (by have := h.2; omega)) hkf p hp
  rw [hpk, hpv] at this
  exact this

theorem grown_entries (ht : HashTable) (h : WellFormed ht) :
    ∀ q ∈ entries (grown ht), q ∈ entries ht := by
  intro q hq
  rcases entries_fill (entries ht) (init_hash_table ht (ht.capacity * 2))
    (init_wellFormed ht _ (by have := h.2; omega)) q hq with hq' | hq'
  · exact hq'
  · exact absurd hq' (init_entries ht _ q)

theorem lookup_mem_table_keys (ht : HashTable) (key value : CStr) (h : WellFormed ht)
    (hl : lookup ht key = some value) : key ∈ table_keys ht := by
  obtain ⟨p, hp, hpk, _⟩ := lookup_some ht key value h hl
  rw [table_keys, mem_pair_keys]
  exact ⟨p, hp, hpk⟩

theorem store_keyFunctional (ht : HashTable) (pair : LinkedPair) (h : WellFormed ht)
    (hkf : KeyFunctional (entries ht)) (hnew : pair.key ∉ table_keys ht) :
    KeyFunctional (entries (store ht pair)) := by
  have hold : ∀ q ∈ entries ht, q.key ≠ pair.key := by
    intro q hq hk
    apply hnew
    rw [table_keys, mem_pair_keys]
    exact ⟨q, hq, hk⟩
  intro a ha b hb hab
  rcases entries_store ht pair h a ha with ha' | ha'
  · rcases entries_store ht pair h b hb with hb' | hb'
    · rw [ha', hb']
    · exact absurd (hab.symm.trans (congrArg LinkedPair.key ha')) (hold b hb')
  · rcases entries_store ht pair h b hb with hb' | hb'
    · exact absurd (hab.trans (congrArg LinkedPair.key hb')) (hold a ha')
    · exact hkf a ha' b hb' hab

/-- One insert of a key that is not in a clean table: it returns with fuel 2,
the table stays clean, the key is bound to the value and every other binding
is kept. -/
theorem insert_clean (ht : HashTable) (key value : CStr) (h : Clean ht)
    (hnew : key ∉ table_keys ht) (hsize : 10 * (ht.num_used + 1) ≤ 7 * 2 ^ 30) :
    ∃ ht', hash_table_insert 2 ht key value = .ok ht' ∧ Clean ht' ∧
      table_keys ht' = insert key (table_keys ht) ∧
      ht'.num_used = ht.num_used + 1 ∧
      lookup ht' key = some value ∧
      ∀ k v, lookup ht k = some v → lookup ht' k = some v := by
  obtain ⟨⟨hw, hb, hn⟩, hkf, hl, hr⟩ := h
  have him := int_max_eq
  have hsize' : 10 * (ht.num_used + 1) ≤ 7516192768 := by
    have : (7 : Nat) * 2 ^ 30 = 7516192768 := by norm_num
    omega
  have ht1 := store_tidy ht (create_pair key value) ⟨hw, hb, hn⟩
  have hkf1 := store_keyFunctional ht (create_pair key value) hw hkf hnew
  have hkeys := table_keys_store ht (create_pair key value) hw
  have hn1 : (store ht (create_pair key value)).num_used = ht.num_used + 1 := by
    rw [store_num_used ht (create_pair key value) hw hb]
    simp [create_pair, hnew]
  have hcap1 := store_capacity ht (create_pair key value)
  have hres1 := store_resized ht (create_pair key value)
  have hlook1 : lookup (store ht (create_pair key value)) key = some value := by
    rw [lookup_store ht _ key hw]; simp [create_pair]
  have hkeep1 : ∀ k v, lookup ht k = some v →
      lookup (store ht (create_pair key value)) k = some v := by
    intro k v hk
    have hne : ¬ k = key := by
      rintro rfl
      exact hnew (lookup_mem_table_keys ht k v hw hk)
    rw [lookup_store ht _ k hw]
    simp [create_pair, hne, hk]
  have hpos := hw.2
  rw [insert_succ 1 ht key value hw (fun _ => by omega)]
  have hkey : (create_pair key value).key = key := rfl
  rw [hkey] at hkeys
  generalize store ht (create_pair key value) = t at *
  by_cases hgrow : 7 * t.capacity < 10 * t.num_used
  · have hcard : 10 * (table_keys t).card ≤ 14 * t.capacity := by
      rw [← ht1.2.2]
      rcases Nat.lt_or_ge t.capacity 2 with hsmall | hbig
      · have hone : t.capacity = 1 := by omega
        have hzero : ht.num_used = 0 := by omega
        omega
      · omega
    have hgt := grown_tidy t ht1.1
    refine ⟨grown t, ?_, ⟨hgt, ?_, ?_, ?_⟩, ?_, ?_, ?_, ?_⟩
    · have h0 : 0 < t.capacity := by omega
      simp only [load_check, h0, hgrow, if_true]
      exact resize_plain _ (plain_insert 0) t ht1.1 hcard (by omega)
    · intro a ha b hb' hab
      exact hkf1 a (grown_entries t ht1.1 a ha) b (grown_entries t ht1.1 b hb') hab
    · rw [hgt.2.2, grown_table_keys t ht1.1, grown_capacity]; omega
    · intro _
      rw [hgt.2.2, grown_table_keys t ht1.1, grown_capacity, ← ht1.2.2]; omega
    · rw [grown_table_keys t ht1.1, hkeys]
    · rw [hgt.2.2, grown_table_keys t ht1.1, ← ht1.2.2, hn1]
    · exact grown_lookup t key value ht1.1 hkf1 hlook1
    · intro k v hk
      exact grown_lookup t k v ht1.1 hkf1 (hkeep1 k v hk)
  · refine ⟨t, ?_, ⟨ht1, hkf1, by omega, ?_⟩, hkeys, hn1, hlook1, hkeep1⟩
    · apply load_check_quiet
      · omega
      · cases hres : t.resized with
        | false => exact Or.inl rfl
        | true =>
          right
          have := hr (hres1.symm.trans hres)
          omega
    · intro hres
      have := hr (hres1.symm.trans hres)
      omega

theorem create_clean (c : Nat) (hc : 1 ≤ c) : Clean (create_hash_table c) := by
  have ht := init_tidy { capacity := 0, resized := false, num_used := 0, storage := [] } c hc
  refine ⟨ht, ?_, ?_, ?_⟩
  · intro a ha
    exact absurd ha (init_entries _ c a)
  · show 10 * 0 ≤ 7 * c
    omega
  · intro h
    exact Bool.noConfusion (h : false = true)

theorem run_inserts (kvs : List (CStr × CStr)) :
    ∀ ht : HashTable, Clean ht → (∀ kv ∈ kvs, kv.1 ∉ table_keys ht) →
      (kvs.map Prod.fst).Nodup → 10 * (ht.num_used + kvs.length) ≤ 7 * 2 ^ 30 →
      ∃ ht', run 2 ht (inserts kvs) = .ok ht' ∧ WellFormed ht' ∧
        (∀ k v, lookup ht k = some v → lookup ht' k = some v) ∧
        ∀ kv ∈ kvs, lookup ht' kv.1 = some kv.2 := by
  induction kvs with
  | nil =>
    intro ht h _ _ _
    exact ⟨ht, rfl, h.1.1, fun _ _ hk => hk, fun kv hkv => absurd hkv (List.not_mem_nil _)⟩
  | cons kv rest ih =>
    intro ht h hnew hnd hsize
    rw [List.map_cons, List.nodup_cons] at hnd
    rw [List.length_cons] at hsize
    obtain ⟨ht1, hins, hclean, hkeys, hnum, hlook, hkeep⟩ :=
      insert_clean ht kv.1 kv.2 h (hnew kv (List.mem_cons_self _ _)) (by omega)
    have hnew1 : ∀ kv' ∈ rest, kv'.1 ∉ table_keys ht1 := by
      intro kv' hkv' hmem
      rw [hkeys, Finset.mem_insert] at hmem
      rcases hmem with heq | hold
      · exact hnd.1 (heq ▸ List.mem_map_of_mem Prod.fst hkv')
      · exact hnew kv' (List.mem_cons_of_mem _ hkv') hold
    obtain ⟨ht', hrun, hw', hkeep', hall⟩ := ih ht1 hclean hnew1 hnd.2 (by rw [hnum]; omega)
    refine ⟨ht', ?_, hw', fun k v hk => hkeep' k v (hkeep k v hk), ?_⟩
    · simp only [inserts, List.map_cons, run, step, hins]
      exact hrun
    · intro kv' hkv'
      rcases List.mem_cons.mp hkv' with rfl | hrest
      · exact hkeep' _ _ hlook
      · exact hall kv' hrest

/-- C1, amended: for every initial capacity `c >= 1` and every list of at most
751,619,276 (key, value) pairs (`10 * length <= 7 * 2 ^ 30`, so that no grow
has to double a capacity of `2 ^ 30` or more) with pairwise different keys,
`create_hash_table(c)` followed by `hash_table_insert` of every pair in list
order returns a table (fuel 2 or more covers every grow the inserts trigger)
on which `hash_table_retrieve` returns exactly `v` for every pair `(k, v)` of
the list. -/
theorem round_trip (c : Nat) (kvs : List (CStr × CStr)) (fuel : Nat) (hc : 1 ≤ c)
    (hdistinct : (kvs.map Prod.fst).Nodup) (hsize : 10 * kvs.length ≤ 7 * 2 ^ 30)
    (hfuel : 2 ≤ fuel) :
    ∃ ht, run fuel (create_hash_table c) (inserts kvs) = .ok ht ∧
      ∀ kv ∈ kvs, hash_table_retrieve ht kv.1 = .ok (some kv.2) := by
  have hempty : ∀ kv ∈ kvs, kv.1 ∉ table_keys (create_hash_table c) := by
    intro kv _
    show kv.1 ∉ table_keys (init_hash_table _ c)
    rw [init_table_keys]
    exact Finset.not_mem_empty _
  have hzero : (create_hash_table c).num_used = 0 := rfl
  obtain ⟨ht, hrun, hw, _, hall⟩ :=
    run_inserts kvs (create_hash_table c) (create_clean c hc) hempty hdistinct
      (by rw [hzero, Nat.zero_add]; exact hsize)
  refine ⟨ht, run_mono_le 2 fuel hfuel _ _ _ hrun, fun kv hkv => ?_⟩
  rw [retrieve_eq ht kv.1 hw, hall kv hkv]

theorem round_trip_witness :
    ∃ ht, run 2 (create_hash_table 2)
        (inserts [(line_1, text_1), (line_2, text_2), (line_3, text_3)]) = .ok ht ∧
      ∀ kv ∈ [(line_1, text_1), (line_2, text_2), (line_3, text_3)],
        hash_table_retrieve ht kv.1 = .ok (some kv.2) :=
  round_trip 2 [(line_1, text_1), (line_2, text_2), (line_3, text_3)] 2
    (by decide) (by decide) (by decide) (by decide)

/-! ## Termination of insert on arbitrary tables -/

/-- An insert of a new key that has to grow a table whose doubled capacity
exceeds `INT_MAX` returns no table. -/
theorem insert_overflow (ht : HashTable) (key value : CStr) (h : WellFormed ht)
    (hb : BucketsOK ht) (hnew : key ∉ table_keys ht) (hn : ht.num_used < INT_MAX)
    (hload : 7 * ht.capacity < 10 * (ht.num_used + 1)) (hmax : INT_MAX < ht.capacity * 2) :
    ∀ fuel ht', hash_table_insert fuel ht key value ≠ .ok ht' := by
  intro fuel ht' hins
  cases fuel with
  | zero => simp [hash_table_insert] at hins
  | succ f =>
    rw [insert_succ f ht key value h (fun _ => hn)] at hins
    have hnum : (store ht (create_pair key value)).num_used = ht.num_used + 1 := by
      rw [store_num_used ht (create_pair key value) h hb]
      simp [create_pair, hnew]
    have hcap := store_capacity ht (create_pair key value)
    have h0 : 0 < (store ht (create_pair key value)).capacity := by rw [hcap]; exact h.2
    have hgrow : 7 * (store ht (create_pair key value)).capacity <
        10 * (store ht (create_pair key value)).num_used := by rw [hcap, hnum]; exact hload
    simp only [load_check, h0, hgrow, if_true] at hins
    rw [resize_overflow _ _ (by rw [hcap]; exact hmax)] at hins
    cases hins

theorem worn_wellFormed (c n : Nat) (hc : 1 ≤ c) : WellFormed (worn_table c n) := by
  simp [WellFormed, worn_table, hc]

theorem worn_bucket (c n : Nat) (key : CStr) : bucket (worn_table c n) key = [] := by
  unfold bucket worn_table
  simp only [List.getElem?_replicate]
  split <;> rfl

theorem worn_bucketsOK (c n : Nat) : BucketsOK (worn_table c n) := by
  intro i chain hi p hp
  simp only [worn_table, List.getElem?_replicate] at hi
  by_cases hic : i < c
  · simp only [hic, if_true, Option.some.injEq] at hi
    rw [← hi] at hp
    exact absurd hp (List.not_mem_nil _)
  · simp [hic] at hi

theorem worn_table_keys (c n : Nat) : table_keys (worn_table c n) = ∅ := by
  ext key
  simp only [Finset.not_mem_empty, iff_false, mem_table_keys]
  rintro ⟨i, chain, hi, hk⟩
  simp only [worn_table, List.getElem?_replicate] at hi
  by_cases hic : i < c
  · simp only [hic, if_true, Option.some.injEq] at hi
    rw [← hi] at hk
    simp [pair_keys] at hk
  · simp [hic] at hi

/-- One round of insert and remove of a key on a worn table: the table is
empty again and `num_used` has gone up by one. -/
theorem wear_round (c n : Nat) (key value : CStr) (hc : 1 ≤ c)
    (hload : 10 * (n + 1) ≤ 7 * c) (hn : n < INT_MAX) :
    run 1 (worn_table c n) [.insert key value, .remove key] = .ok (worn_table c (n + 1)) := by
  have hw := worn_wellFormed c n hc
  have hstore : store (worn_table c n) (create_pair key value) =
      { capacity := c, resized := false, num_used := n + 1,
        storage := (List.replicate c []).set (hash key c) [create_pair key value] } := by
    unfold store
    rw [worn_bucket]
    rfl
  have hins : hash_table_insert 1 (worn_table c n) key value =
      .ok { capacity := c, resized := false, num_used := n + 1,
            storage := (List.replicate c []).set (hash key c) [create_pair key value] } := by
    rw [insert_succ 0 _ key value hw (fun _ => hn), hstore]
    exact load_check_quiet _ _ hload (Or.inl rfl)
  have hw' : WellFormed
      { capacity := c, resized := false, num_used := n + 1,
        storage := (List.replicate c []).set (hash key c) [create_pair key value] } := by
    simp [WellFormed, hc]
  have hidx : hash key c < (List.replicate c ([] : List LinkedPair)).length := by
    rw [List.length_replicate]; exact hash_lt key c hc
  have hrem : hash_table_remove
      { capacity := c, resized := false, num_used := n + 1,
        storage := (List.replicate c []).set (hash key c) [create_pair key value] } key =
      .ok (worn_table c (n + 1)) := by
    rw [remove_eq _ key hw']
    unfold removed bucket
    simp only [List.getElem?_set_self hidx, Option.getD_some, chain_remove, create_pair,
      if_true, List.set_set, List.set_replicate_self]
    rfl
  simp only [run, step, hins, hrem]

theorem wear_ops_succ (key value : CStr) (m : Nat) :
    wear_ops key value (m + 1) =
      [.insert key value, .remove key] ++ wear_ops key value m := by
  simp [wear_ops, List.replicate_succ]

theorem wear_run (key value : CStr) (c : Nat) (hc : 1 ≤ c) (m : Nat) :
    ∀ n, 10 * (n + m) ≤ 7 * c → n + m ≤ INT_MAX →
      run 1 (worn_table c n) (wear_ops key value m) = .ok (worn_table c (n + m)) := by
  induction m with
  | zero => intro n _ _; rfl
  | succ m ih =>
    intro n hload hn
    rw [wear_ops_succ,
      run_append 1 _ _ _ _ (wear_round c n key value hc (by omega) (by omega)),
      ih (n + 1) (by omega) (by omega)]
    congr 2
    omega

theorem worn_reachable (key value : CStr) (c m : Nat) (hc : 1 ≤ c)
    (hload : 10 * m ≤ 7 * c) (hm : m ≤ INT_MAX) : Reachable (worn_table c m) := by
  refine ⟨c, wear_ops key value m, 1, hc, ?_⟩
  have := wear_run key value c hc m 0 (by omega) (by omega)
  rw [Nat.zero_add] at this
  exact this

/-- C17 as stated fails: `create_hash_table(2 ^ 30)` followed by 751,619,276
rounds of insert and remove of `"line_1"` gives the empty table of capacity
`2 ^ 30` with `num_used = 751619276` (remove never decrements it); the next
insert has load above 0.7 and must double the capacity, `2 ^ 31` does not fit
in `int`, and the call returns no table at all. -/
theorem grow_overflows :
    Reachable (worn_table (2 ^ 30) 751619276) ∧
      ∀ fuel ht',
        hash_table_insert fuel (worn_table (2 ^ 30) 751619276) line_1 text_1 ≠ .ok ht' := by
  have him := int_max_eq
  have hpow : (2 : Nat) ^ 30 = 1073741824 := by norm_num
  refine ⟨worn_reachable line_1 text_1 (2 ^ 30) 751619276 (by omega) (by omega) (by omega), ?_⟩
  apply insert_overflow _ line_1 text_1 (worn_wellFormed _ _ (by omega)) (worn_bucketsOK _ _)
  · rw [worn_table_keys]; exact Finset.not_mem_empty _
  · show 751619276 < INT_MAX
    omega
  · show 7 * 2 ^ 30 < 10 * (751619276 + 1)
    omega
  · show INT_MAX < 2 ^ 30 * 2
    omega

/-- Inserts of new, different keys that stay within a load of 0.7 on a table
that has never grown: each is the store step alone. -/
theorem run_inserts_flat (kvs : List (CStr × CStr)) :
    ∀ ht : HashTable, Tidy ht → ht.resized = false →
      (∀ kv ∈ kvs, kv.1 ∉ table_keys ht) → (kvs.map Prod.fst).Nodup →
      10 * (ht.num_used + kvs.length) ≤ 7 * ht.capacity →
      ht.num_used + kvs.length ≤ INT_MAX →
      ∃ ht', run 2 ht (inserts kvs) = .ok ht' ∧ Tidy ht' ∧ ht'.resized = false ∧
        ht'.capacity = ht.capacity ∧ ht'.num_used = ht.num_used + kvs.length ∧
        table_keys ht' = table_keys ht ∪ (kvs.map Prod.fst).toFinset := by
  induction kvs with
  | nil =>
    intro ht h hr _ _ _ _
    exact ⟨ht, rfl, h, hr, rfl, rfl, by simp⟩
  | cons kv rest ih =>
    intro ht h hr hnew hnd hload hmax
    rw [List.map_cons, List.nodup_cons] at hnd
    rw [List.length_cons] at hload hmax
    have hk : kv.1 ∉ table_keys ht := hnew kv (List.mem_cons_self _ _)
    have ht1 := store_tidy ht (create_pair kv.1 kv.2) h
    have hkeys := table_keys_store ht (create_pair kv.1 kv.2) h.1
    have hkey : (create_pair kv.1 kv.2).key = kv.1 := rfl
    rw [hkey] at hkeys
    have hnum : (store ht (create_pair kv.1 kv.2)).num_used = ht.num_used + 1 := by
      rw [store_num_used ht (create_pair kv.1 kv.2) h.1 h.2.1]
      simp [create_pair, hk]
    have hcap := store_capacity ht (create_pair kv.1 kv.2)
    have hres := store_resized ht (create_pair kv.1 kv.2)
    have hins : hash_table_insert 2 ht kv.1 kv.2 = .ok (store ht (create_pair kv.1 kv.2)) := by
      rw [insert_succ 1 ht kv.1 kv.2 h.1 (fun _ => by omega)]
      apply load_check_quiet
      · rw [hnum, hcap]; omega
      · left; rw [hres]; exact hr
    have hnew1 : ∀ kv' ∈ rest, kv'.1 ∉ table_keys (store ht (create_pair kv.1 kv.2)) := by
      intro kv' hkv' hmem
      rw [hkeys, Finset.mem_insert] at hmem
      rcases hmem with heq | hold
      · exact hnd.1 (heq ▸ List.mem_map_of_mem Prod.fst hkv')
      · exact hnew kv' (List.mem_cons_of_mem _ hkv') hold
    obtain ⟨ht', hrun, htidy, hr', hcap', hnum', hkeys'⟩ :=
      ih _ ht1 (by rw [hres]; exact hr) hnew1 hnd.2 (by rw [hnum, hcap]; omega)
        (by rw [hnum]; omega)
    refine ⟨ht', ?_, htidy, hr', by rw [hcap', hcap],
      by rw [hnum', hnum, List.length_cons]; omega, ?_⟩
    · simp only [inserts, List.map_cons, run, step, hins]
      exact hrun
    · rw [hkeys', hkeys]
      ext key
      simp only [Finset.mem_union, Finset.mem_insert, List.map_cons, List.toFinset_cons]
      tauto

theorem digit_key_injective : Function.Injective digit_key := by
  intro i j h
  unfold digit_key at h
  have hinj : Function.Injective (fun d : Nat => d + 48) := fun a b hab => by
    simp only at hab
    omega
  exact Nat.digits.injective 10 (List.map_injective_iff.mpr hinj h)

theorem digit_pairs_keys (n : Nat) :
    (digit_pairs n).map Prod.fst = (List.range n).map digit_key := by
  simp [digit_pairs, Function.comp_def]

theorem digit_pairs_nodup (n : Nat) : ((digit_pairs n).map Prod.fst).Nodup := by
  rw [digit_pairs_keys]
  exact (List.nodup_range n).map digit_key_injective

theorem digit_pairs_length (n : Nat) : (digit_pairs n).length = n := by
  simp [digit_pairs]

theorem digit_pairs_succ (n : Nat) :
    digit_pairs (n + 1) = digit_pairs n ++ [(digit_key n, [])] := by
  simp [digit_pairs, List.range_succ]

theorem digit_key_fresh (n : Nat) :
    digit_key n ∉ ((digit_pairs n).map Prod.fst).toFinset := by
  rw [digit_pairs_keys, List.mem_toFinset, List.mem_map]
  rintro ⟨i, hi, heq⟩
  have := digit_key_injective heq
  rw [List.mem_range] at hi
  omega

/-- A run of `n + 1` inserts of different keys from `create_hash_table(c)`
whose last insert has to grow a table of capacity `c` with `2 * c > INT_MAX`
returns no table. -/
theorem digit_run_overflow (c n : Nat) (hc : 1 ≤ c) (hload : 10 * n ≤ 7 * c)
    (hn : n < INT_MAX) (hgrow : 7 * c < 10 * (n + 1)) (hmax : INT_MAX < c * 2) :
    ∀ fuel ht, run fuel (create_hash_table c) (inserts (digit_pairs (n + 1))) ≠ .ok ht := by
  intro fuel ht hrun
  have hfresh : ∀ kv ∈ digit_pairs n, kv.1 ∉ table_keys (create_hash_table c) := by
    intro kv _
    show kv.1 ∉ table_keys (init_hash_table _ c)
    rw [init_table_keys]
    exact Finset.not_mem_empty _
  have hzero : (create_hash_table c).num_used = 0 := rfl
  have hcap0 : (create_hash_table c).capacity = c := rfl
  obtain ⟨t, hrun2, htidy, _, hcap, hnum, hkeys⟩ :=
    run_inserts_flat (digit_pairs n) (create_hash_table c) (init_tidy _ c hc) rfl hfresh
      (digit_pairs_nodup n)
      (by rw [hzero, hcap0, digit_pairs_length]; omega)
      (by rw [hzero, digit_pairs_length]; omega)
  rw [hzero, digit_pairs_length, Nat.zero_add] at hnum
  rw [hcap0] at hcap
  have hkeys0 : table_keys (create_hash_table c) = ∅ := init_table_keys _ c
  rw [hkeys0, Finset.empty_union] at hkeys
  have hF := run_mono_le fuel (max fuel 2) (le_max_left _ _) _ _ _ hrun
  have h2 := run_mono_le 2 (max fuel 2) (le_max_right _ _) _ _ _ hrun2
  rw [digit_pairs_succ] at hF
  have hsplit : inserts (digit_pairs n ++ [(digit_key n, [])]) =
      inserts (digit_pairs n) ++ [Op.insert (digit_key n) []] := by
    simp [inserts]
  rw [hsplit, run_append _ _ _ _ _ h2] at hF
  simp only [run, step] at hF
  have hnone := insert_overflow t (digit_key n) [] htidy.1 htidy.2.1
    (by rw [hkeys]; exact digit_key_fresh n) (by rw [hnum]; exact hn)
    (by rw [hcap, hnum]; exact hgrow) (by rw [hcap]; exact hmax) (max fuel 2)
  cases hins : hash_table_insert (max fuel 2) t (digit_key n) [] with
  | ok t' => exact hnone t' hins
  | undefined => rw [hins] at hF; cases hF
  | out_of_fuel => rw [hins] at hF; cases hF

/-- C1 as stated fails: the 751,619,277 pairs `digit_pairs 751619277` have
pairwise different keys, and their inserts from `create_hash_table(2 ^ 30)`
return no table, whatever the fuel: the last insert brings the load of the
capacity-`2 ^ 30` table above 0.7 and the doubled capacity `2 ^ 31` does not
fit in `int`. -/
theorem round_trip_overflows :
    1 ≤ 2 ^ 30 ∧ ((digit_pairs 751619277).map Prod.fst).Nodup ∧
      ∀ fuel ht,
        run fuel (create_hash_table (2 ^ 30)) (inserts (digit_pairs 751619277)) ≠ .ok ht := by
  have him := int_max_eq
  have hpow : (2 : Nat) ^ 30 = 1073741824 := by norm_num
  refine ⟨by omega, digit_pairs_nodup _, ?_⟩
  exact digit_run_overflow (2 ^ 30) 751619276 (by omega) (by omega) (by omega) (by omega)
    (by omega)

end HashTables
